import Mathlib

/-!
Shallow embedding of the core of the omni-search scanner
(src/src-tauri/cpp/scanner.cpp): indexed-file view and its FRN position
map, the path resolver, the search evaluator, and the duplicate engine.
Wide strings are modelled as lists of characters; 64-bit unsigned
arithmetic is modelled as natural numbers reduced modulo 2 ^ 64 where the
source relies on wrap-around.  Filesystem access (stat, reads) is
modelled by an explicit oracle structure.
-/

/-- Model of the C-locale towlower applied to wide characters (ASCII range). -/
def towlower (c : Char) : Char := c.toLower

/-- Model of the C-locale towupper applied to wide characters (ASCII range). -/
def towupper (c : Char) : Char := c.toUpper

/-- ToLower from the source: lowercases every character of a wide string. -/
def ToLowerList (value : List Char) : List Char := value.map towlower

/-- One position test of the ContainsCaseInsensitive loop: the needle
(already lowered) matches the text at offset i. -/
def MatchesAt (text needle_lower : List Char) (i : Nat) : Bool :=
  decide (((text.drop i).take needle_lower.length).map towlower = needle_lower)

/-- ContainsCaseInsensitive from the source: brute-force search lowering
the text on the fly; the needle is assumed lowered. -/
def ContainsCaseInsensitive (text needle_lower : List Char) : Bool :=
  if needle_lower.isEmpty then true
  else if text.length < needle_lower.length then false
  else (List.range (text.length - needle_lower.length + 1)).any
    (fun i => MatchesAt text needle_lower i)

/-- Plain case-sensitive substring test (used to state that an error text
contains a given sentence). -/
def ContainsSubstring (text needle : List Char) : Bool :=
  if needle.isEmpty then true
  else if text.length < needle.length then false
  else (List.range (text.length - needle.length + 1)).any
    (fun i => decide ((text.drop i).take needle.length = needle))

/-- IsPathMissingError: the Win32 codes treated as a stale path
(ERROR_FILE_NOT_FOUND = 2, ERROR_PATH_NOT_FOUND = 3, ERROR_INVALID_NAME = 123,
ERROR_BAD_NETPATH = 53, ERROR_BAD_NET_NAME = 67, ERROR_NOT_READY = 21). -/
def IsPathMissingError (error_code : Nat) : Bool :=
  decide (error_code = 2 ∨ error_code = 3 ∨ error_code = 123 ∨
    error_code = 53 ∨ error_code = 67 ∨ error_code = 21)

/-- ExtractExtensionLower from the source: the lowercased suffix after the
last dot, empty when there is no dot, the dot is first, or the dot is last. -/
def ExtractExtensionLower (file_name : List Char) : List Char :=
  match file_name.reverse.findIdx? (fun c => c = '.') with
  | none => []
  | some r =>
    let dot := file_name.length - 1 - r
    if dot = 0 ∨ dot + 1 ≥ file_name.length then []
    else ToLowerList (file_name.drop (dot + 1))

/-- NormalizeExtensionFilter from the source: lowercase, strip leading dots;
a null filter behaves as the empty string. -/
def NormalizeExtensionFilter (extension_utf8 : Option (List Char)) : List Char :=
  (ToLowerList (extension_utf8.getD [])).dropWhile (fun c => c = '.')

/-- NormalizeDriveLetter from the source: null maps to C, the first
character is uppercased, and anything outside A..Z maps to C. -/
def NormalizeDriveLetter (drive_utf8 : Option (List Char)) : List Char :=
  let drive := match drive_utf8 with
    | none => ['C']
    | some s => s
  match drive with
  | [] => ['C']
  | c :: _ =>
    let candidate := towupper c
    if candidate < 'A' ∨ 'Z' < candidate then ['C'] else [candidate]

/-- DriveBucketKeyFromPath from the source: the uppercased drive letter for
a drive-rooted path, the sentinel for a UNC path, a question mark otherwise. -/
def DriveBucketKeyFromPath (path : List Char) : Char :=
  match path with
  | c0 :: c1 :: _ =>
    if c1 = ':' ∧ 'A' ≤ towupper c0 ∧ towupper c0 ≤ 'Z' then towupper c0
    else if c0 = '\\' ∧ c1 = '\\' then '#'
    else '?'
  | _ => '?'

/-- kFNVOffsetBasis exactly as written in the source. -/
def kFNVOffsetBasis : Nat := 1469598103934665603

/-- kFNVPrime exactly as written in the source (0x100000001b3). -/
def kFNVPrime : Nat := 1099511628211

/-- One step of FNV1aMixBuffer: hash = (hash XOR byte) * prime on uint64. -/
def FNV1aMixByte (hash byte : Nat) : Nat := ((hash ^^^ byte) * kFNVPrime) % 2 ^ 64

/-- FNV1aMixBuffer from the source: folds the byte sequence into the hash. -/
def FNV1aMixBuffer (bytes : List Nat) (hash : Nat) : Nat :=
  bytes.foldl FNV1aMixByte hash

/-- The eight little-endian bytes of a 64-bit value (memcpy of a uint64). -/
def U64LEBytes (value : Nat) : List Nat :=
  [value % 256, value / 2 ^ 8 % 256, value / 2 ^ 16 % 256, value / 2 ^ 24 % 256,
   value / 2 ^ 32 % 256, value / 2 ^ 40 % 256, value / 2 ^ 48 % 256, value / 2 ^ 56 % 256]

/-- FNV1aMixU64 from the source: mixes the bytes of a 64-bit value. -/
def FNV1aMixU64 (value hash : Nat) : Nat :=
  FNV1aMixBuffer (U64LEBytes (value % 2 ^ 64)) hash

/-- NodeEntry from the source: parent FRN, leaf name, directory flag. -/
structure NodeEntry where
  parent_frn : Nat
  name : List Char
  is_directory : Bool
deriving DecidableEq, Inhabited

/-- IndexedFile from the source. -/
structure IndexedFile where
  frn : Nat
  name : List Char
  path : List Char
  extension_lower : List Char
  is_directory : Bool
deriving DecidableEq, Inhabited

/-- SearchRow from the source. -/
structure SearchRow where
  name : List Char
  path : List Char
  extension : List Char
  size : Nat
  created_unix : Int
  modified_unix : Int
  is_directory : Bool
deriving DecidableEq, Inhabited

/-- DuplicateFileRow from the source. -/
structure DuplicateFileRow where
  name : List Char
  path : List Char
  size : Nat
  created_unix : Int
  modified_unix : Int
deriving DecidableEq, Inhabited

/-- DuplicateGroupRow from the source. -/
structure DuplicateGroupRow where
  group_id : List Char
  size : Nat
  total_bytes : Nat
  file_count : Nat
  files : List DuplicateFileRow
deriving DecidableEq, Inhabited

/-- File metadata as returned by a successful stat
(size, timestamps already converted to Unix seconds). -/
structure FileMeta where
  size : Nat
  created_unix : Int
  modified_unix : Int
deriving DecidableEq, Inhabited

/-- Filesystem oracle: stat either yields metadata or a Win32 error code;
content gives the byte sequence of a file for reads. -/
structure FsModel where
  stat : List Char → Except Nat FileMeta
  content : List Char → List Nat

/-- Outcome of one path resolution: failure, success carrying the updated
memoisation cache, or fuel exhaustion (used to state termination). -/
inductive ResolveOutcome where
  | failed : ResolveOutcome
  | resolved : List Char → List (Nat × List Char) → ResolveOutcome
  | outOfFuel : ResolveOutcome
deriving DecidableEq

/-- ResolvePathForFrn from the source: memoised walk up the parent chain
with a per-call currently-resolving set for cycle detection.  The recursion
is bounded by explicit fuel so that termination is a provable statement. -/
def ResolvePathForFrn (nodes : List (Nat × NodeEntry)) (root_frn : Nat)
    (root_path : List Char) :
    Nat → List (Nat × List Char) → List Nat → Nat → ResolveOutcome
  | _, _, _, 0 => .outOfFuel
  | frn, cache, resolving, fuel + 1 =>
    match cache.lookup frn with
    | some cached => .resolved cached cache
    | none =>
      if frn = root_frn then .resolved root_path cache
      else
        match nodes.lookup frn with
        | none => .failed
        | some node =>
          if frn ∈ resolving then .failed
          else
            match ResolvePathForFrn nodes root_frn root_path node.parent_frn
                cache (frn :: resolving) fuel with
            | .outOfFuel => .outOfFuel
            | .failed => .failed
            | .resolved parent_path cache2 =>
              let full_path :=
                (if parent_path ≠ [] ∧ parent_path.getLast? ≠ some '\\'
                 then parent_path ++ ['\\'] else parent_path) ++ node.name
              .resolved full_path ((frn, full_path) :: cache2)

/-- Number of node-table keys not yet in the currently-resolving set; the
resolver's recursion strictly shrinks this measure. -/
def UnresolvedCount (nodes : List (Nat × NodeEntry)) (resolving : List Nat) : Nat :=
  ((nodes.map Prod.fst).filter (fun k => decide (k ∉ resolving))).length

/-- The projection loop shared by scan_mft_internal and
RebuildIndexedFilesFromNodesLocked: walks the node table, skips the
anonymous root, optionally skips directories, resolves each path with a
shared memoisation cache, and skips unresolvable entries. -/
def ProjectNodesGo (nodes : List (Nat × NodeEntry)) (root_frn : Nat)
    (root_path : List Char) (include_directories : Bool) (fuel : Nat) :
    List (Nat × NodeEntry) → List (Nat × List Char) → List IndexedFile
  | [], _ => []
  | (frn, node) :: rest, cache =>
    if node.name = [] ∨ (node.is_directory ∧ ¬ include_directories) then
      ProjectNodesGo nodes root_frn root_path include_directories fuel rest cache
    else
      match ResolvePathForFrn nodes root_frn root_path frn cache [] fuel with
      | .resolved full_path cache2 =>
        if full_path = [] then
          ProjectNodesGo nodes root_frn root_path include_directories fuel rest cache2
        else
          ⟨frn, node.name, full_path,
            if node.is_directory then [] else ExtractExtensionLower node.name,
            node.is_directory⟩ ::
          ProjectNodesGo nodes root_frn root_path include_directories fuel rest cache2
      | _ =>
        ProjectNodesGo nodes root_frn root_path include_directories fuel rest cache

/-- Projection of a node table into the indexed-file sequence, with the
cache seeded at the root and enough fuel for the resolver never to run out. -/
def ProjectNodes (nodes : List (Nat × NodeEntry)) (root_frn : Nat)
    (root_path : List Char) (include_directories : Bool) : List IndexedFile :=
  ProjectNodesGo nodes root_frn root_path include_directories (nodes.length + 1)
    nodes [(root_frn, root_path)]

/-- The index state guarded by the reader-writer lock: the indexed-file
sequence and the FRN-to-position acceleration map. -/
structure IndexState where
  files : List IndexedFile
  positions : Nat → Option Nat

/-- The forward assignment loop of RebuildFilePositionLookupLocked:
an assignment for each index, a later assignment overwriting an earlier one. -/
def AssignPositionsFrom : List IndexedFile → Nat → (Nat → Option Nat) → Nat → Option Nat
  | [], _, m => m
  | f :: rest, i, m =>
    AssignPositionsFrom rest (i + 1) (fun k => if k = f.frn then some i else m k)

/-- RebuildFilePositionLookupLocked from the source. -/
def RebuildFilePositionLookupLocked (files : List IndexedFile) : Nat → Option Nat :=
  AssignPositionsFrom files 0 (fun _ => none)

/-- The emplace-style position registration used while projecting the node
table: an existing entry is never overwritten. -/
def EmplacePositionsFrom : List IndexedFile → Nat → (Nat → Option Nat) → Nat → Option Nat
  | [], _, m => m
  | f :: rest, i, m =>
    EmplacePositionsFrom rest (i + 1)
      (fun k => if k = f.frn ∧ m k = none then some i else m k)

/-- RemoveIndexedFileByFrnLocked from the source: swap-with-last removal,
re-registering the swapped tail element, then erasing the removed FRN. -/
def RemoveIndexedFileByFrnLocked (s : IndexState) (frn : Nat) : IndexState :=
  match s.positions frn with
  | none => s
  | some remove_index =>
    let last_index := s.files.length - 1
    if remove_index ≠ last_index then
      let moved := s.files.getD last_index default
      ⟨(s.files.set remove_index moved).dropLast,
       fun k => if k = frn then none
                else if k = moved.frn then some remove_index
                else s.positions k⟩
    else
      ⟨s.files.dropLast, fun k => if k = frn then none else s.positions k⟩

/-- UpsertIndexedFileLocked from the source: append when the FRN is new,
in-place replacement when it is already indexed. -/
def UpsertIndexedFileLocked (s : IndexState) (frn : Nat) (name : List Char)
    (full_path : List Char) (is_directory : Bool) : IndexState :=
  let next_file : IndexedFile :=
    ⟨frn, name, full_path,
     if is_directory then [] else ExtractExtensionLower name, is_directory⟩
  match s.positions frn with
  | none =>
    ⟨s.files ++ [next_file],
     fun k => if k = frn then some s.files.length else s.positions k⟩
  | some p => ⟨s.files.set p next_file, s.positions⟩

/-- RebuildIndexedFilesFromNodesLocked from the source: clears the view
when the root is unset, otherwise reprojects the node table, registering
positions as files are emitted. -/
def RebuildIndexedFilesFromNodesLocked (nodes : List (Nat × NodeEntry))
    (root_frn : Nat) (root_path : List Char) (include_directories : Bool) :
    IndexState :=
  if root_frn = 0 ∨ root_path = [] ∨ nodes = [] then ⟨[], fun _ => none⟩
  else
    let files := ProjectNodes nodes root_frn root_path include_directories
    ⟨files, EmplacePositionsFrom files 0 (fun _ => none)⟩

/-- ApplyScanSnapshotLocked from the source, composed with the projection
performed at the end of scan_mft_internal: publishes a single-volume scan
and rebuilds the position lookup. -/
def ApplyScanSnapshotLocked (nodes : List (Nat × NodeEntry)) (root_frn : Nat)
    (root_path : List Char) (include_directories : Bool) : IndexState :=
  let files := ProjectNodes nodes root_frn root_path include_directories
  ⟨files, RebuildFilePositionLookupLocked files⟩

/-- ApplyIndexedFilesOnlyLocked from the source: publishes a bare file list
(the all-drives merge) and rebuilds the position lookup. -/
def ApplyIndexedFilesOnlyLocked (files : List IndexedFile) : IndexState :=
  ⟨files, RebuildFilePositionLookupLocked files⟩

/-- The index states reachable by the published mutations: the empty
initial state, single-volume full-scan publication, all-drives publication
(only when the flag allows it), live-watcher upsert and removal, and the
full rebuild from the node table.  Node tables carry the uniqueness of
their keys, as C++ unordered_map keys are unique. -/
inductive ReachableIndex : Bool → IndexState → Prop where
  | init (b : Bool) : ReachableIndex b ⟨[], fun _ => none⟩
  | publish_scan (b : Bool) (s : IndexState) (nodes : List (Nat × NodeEntry))
      (root_frn : Nat) (root_path : List Char) (include_directories : Bool)
      (hkeys : (nodes.map Prod.fst).Nodup) (h : ReachableIndex b s) :
      ReachableIndex b (ApplyScanSnapshotLocked nodes root_frn root_path include_directories)
  | publish_all_drives (s : IndexState)
      (snaps : List ((List (Nat × NodeEntry)) × Nat × List Char))
      (include_directories : Bool)
      (hkeys : ∀ t ∈ snaps, (t.1.map Prod.fst).Nodup)
      (h : ReachableIndex true s) :
      ReachableIndex true (ApplyIndexedFilesOnlyLocked
        ((snaps.map (fun t => ProjectNodes t.1 t.2.1 t.2.2 include_directories)).flatten))
  | upsert (b : Bool) (s : IndexState) (frn : Nat) (name full_path : List Char)
      (is_directory : Bool) (h : ReachableIndex b s) :
      ReachableIndex b (UpsertIndexedFileLocked s frn name full_path is_directory)
  | remove (b : Bool) (s : IndexState) (frn : Nat) (h : ReachableIndex b s) :
      ReachableIndex b (RemoveIndexedFileByFrnLocked s frn)
  | rebuild (b : Bool) (s : IndexState) (nodes : List (Nat × NodeEntry))
      (root_frn : Nat) (root_path : List Char) (include_directories : Bool)
      (hkeys : (nodes.map Prod.fst).Nodup) (h : ReachableIndex b s) :
      ReachableIndex b (RebuildIndexedFilesFromNodesLocked nodes root_frn root_path include_directories)

/-- The exact-and-dense position-map invariant: the map sends an FRN to an
index exactly when that index holds a file with that FRN. -/
def PositionsExact (s : IndexState) : Prop :=
  ∀ f j, s.positions f = some j ↔ j < s.files.length ∧ (s.files.getD j default).frn = f

/-- The per-query values computed at the top of omni_search_files_json:
the lowered query, the normalized extension filter, the bounds, and the
effective limit. -/
structure SearchQuery where
  query : List Char
  extension_filter : List Char
  min_size : Nat
  max_size : Nat
  min_created_unix : Int
  max_created_unix : Int
  limit : Nat
deriving DecidableEq

/-- has_extension_filter from the source. -/
def HasExtensionFilter (q : SearchQuery) : Bool := decide (q.extension_filter ≠ [])

/-- extension_targets_directories from the source. -/
def ExtensionTargetsDirectories (q : SearchQuery) : Bool :=
  decide (q.extension_filter = ("folder".toList) ∨ q.extension_filter = ("folders".toList) ∨
    q.extension_filter = ("dir".toList) ∨ q.extension_filter = ("directory".toList))

/-- has_size_filter from the source: a nonzero lower bound or an upper
bound below the uint64 sentinel. -/
def HasSizeFilter (q : SearchQuery) : Bool :=
  decide (0 < q.min_size ∨ q.max_size < 2 ^ 64 - 1)

/-- has_date_filter from the source: bounds away from the int64 sentinels. -/
def HasDateFilter (q : SearchQuery) : Bool :=
  decide (-(2 ^ 63 : Int) < q.min_created_unix ∨ q.max_created_unix < 2 ^ 63 - 1)

/-- requires_metadata from the source. -/
def RequiresMetadata (q : SearchQuery) : Bool := HasSizeFilter q || HasDateFilter q

/-- The extension-filter rejection test inside the search loop. -/
def ExtensionRejects (q : SearchQuery) (file : IndexedFile) : Bool :=
  HasExtensionFilter q &&
    (if ExtensionTargetsDirectories q then ! file.is_directory
     else decide (file.is_directory = true ∨ file.extension_lower ≠ q.extension_filter))

/-- The body of the search loop for one indexed file: substring filter,
extension filter, stat, stale-entry drop, metadata-bound filters, and the
zeroing of metadata when the stat failed for a non-missing reason. -/
def SearchHit (fs : FsModel) (q : SearchQuery) (file : IndexedFile) : Option SearchRow :=
  if ! ContainsCaseInsensitive file.path q.query then none
  else if ExtensionRejects q file then none
  else
    match fs.stat file.path with
    | .error code =>
      if IsPathMissingError code then none
      else if RequiresMetadata q then none
      else some ⟨file.name, file.path, file.extension_lower, 0, 0, 0, file.is_directory⟩
    | .ok m =>
      if RequiresMetadata q ∧
          (m.size < q.min_size ∨ q.max_size < m.size ∨
           m.created_unix < q.min_created_unix ∨ q.max_created_unix < m.created_unix)
      then none
      else some ⟨file.name, file.path, file.extension_lower, m.size,
        m.created_unix, m.modified_unix, file.is_directory⟩

/-- The non-distribution accumulation loop: rows are pushed in stored index
order and the scan breaks as soon as the limit is reached. -/
def SearchScanLoop (fs : FsModel) (q : SearchQuery) :
    List IndexedFile → List SearchRow → List SearchRow
  | [], rows => rows
  | file :: rest, rows =>
    match SearchHit fs q file with
    | none => SearchScanLoop fs q rest rows
    | some row =>
      let rows2 := rows ++ [row]
      if q.limit ≤ rows2.length then rows2 else SearchScanLoop fs q rest rows2

/-- Appending a value to the bucket of a key in an association list kept in
first-encounter order (unordered_map plus the drive_order vector). -/
def AddToAssoc {κ α : Type} [DecidableEq κ] :
    List (κ × List α) → κ → α → List (κ × List α)
  | [], key, a => [(key, [a])]
  | (k, items) :: rest, key, a =>
    if k = key then (k, items ++ [a]) :: rest
    else (k, items) :: AddToAssoc rest key a

/-- The distribution-mode accumulation loop: every hit is appended to its
source-drive bucket, buckets appearing in first-encounter order. -/
def SearchBucketLoop (fs : FsModel) (q : SearchQuery) :
    List IndexedFile → List (Char × List SearchRow) → List (Char × List SearchRow)
  | [], buckets => buckets
  | file :: rest, buckets =>
    match SearchHit fs q file with
    | none => SearchBucketLoop fs q rest buckets
    | some row =>
      SearchBucketLoop fs q rest (AddToAssoc buckets (DriveBucketKeyFromPath file.path) row)

/-- One pass of the round-robin for-loop over the buckets: each bucket with
elements left contributes one row, and the pass breaks once the limit is
reached.  Returns the updated buckets-with-offsets, the rows, and the
appended flag. -/
def RoundRobinPass :
    List (List SearchRow × Nat) → List SearchRow → Nat →
    List (List SearchRow × Nat) × List SearchRow × Bool
  | [], rows, _ => ([], rows, false)
  | (bucket, off) :: rest, rows, limit =>
    if off < bucket.length then
      let rows2 := rows ++ [bucket.getD off default]
      if limit ≤ rows2.length then ((bucket, off + 1) :: rest, rows2, true)
      else
        let next := RoundRobinPass rest rows2 limit
        ((bucket, off + 1) :: next.1, next.2.1, true)
    else
      let next := RoundRobinPass rest rows limit
      ((bucket, off) :: next.1, next.2.1, next.2.2)

/-- The pass never removes rows (needed for the termination of the loop below). -/
def RoundRobinPass_length_le (entries : List (List SearchRow × Nat))
    (rows : List SearchRow) (limit : Nat) :
    rows.length ≤ (RoundRobinPass entries rows limit).2.1.length := by
  induction entries generalizing rows with
  | nil => simp [RoundRobinPass]
  | cons e rest ih =>
    obtain ⟨bucket, off⟩ := e
    by_cases h : off < bucket.length
    · by_cases h2 : limit ≤ rows.length + 1
      · simp [RoundRobinPass, h, h2]
      · have := ih (rows ++ [bucket.getD off default])
        simp only [RoundRobinPass, if_pos h]
        simp only [List.length_append, List.length_singleton, if_neg h2] at this ⊢
        omega
    · simpa [RoundRobinPass, h] using ih rows

/-- When the appended flag is set the pass strictly grows the row list. -/
def RoundRobinPass_length_lt (entries : List (List SearchRow × Nat))
    (rows : List SearchRow) (limit : Nat)
    (h : (RoundRobinPass entries rows limit).2.2 = true) :
    rows.length < (RoundRobinPass entries rows limit).2.1.length := by
  induction entries generalizing rows with
  | nil => simp [RoundRobinPass] at h
  | cons e rest ih =>
    obtain ⟨bucket, off⟩ := e
    by_cases hoff : off < bucket.length
    · by_cases h2 : limit ≤ rows.length + 1
      · simp [RoundRobinPass, hoff, h2]
      · have := RoundRobinPass_length_le rest (rows ++ [bucket.getD off default]) limit
        simp only [RoundRobinPass, if_pos hoff]
        simp only [List.length_append, List.length_singleton, if_neg h2] at this ⊢
        omega
    · simp only [RoundRobinPass, if_neg hoff] at h ⊢
      exact ih rows h

/-- The round-robin while-loop from omni_search_files_json: repeat passes
while rows are still wanted and the previous pass appended something. -/
def RoundRobinLoop (entries : List (List SearchRow × Nat)) (rows : List SearchRow)
    (limit : Nat) : List SearchRow :=
  if h : rows.length < limit then
    let next := RoundRobinPass entries rows limit
    if happ : next.2.2 = true then RoundRobinLoop next.1 next.2.1 limit else next.2.1
  else rows
termination_by limit - rows.length
decreasing_by
  have := RoundRobinPass_length_lt entries rows limit happ
  omega

/-- The globals read by the search evaluator: the indexed view and the
all-drives flag recorded by the most recent start of an enumeration. -/
structure SearchEnv where
  g_indexed_files : List IndexedFile
  g_scan_all_drives_mode : Bool

/-- The effective result limit: zero requests the default of 200, any
other request is capped at 5000. -/
def EffectiveLimit (requested_limit : Nat) : Nat :=
  if requested_limit = 0 then 200 else min requested_limit 5000

/-- The query record assembled at the top of omni_search_files_json. -/
def MakeSearchQuery (query_utf8 extension_utf8 : Option (List Char))
    (min_size max_size : Nat) (min_created_unix max_created_unix : Int)
    (requested_limit : Nat) : SearchQuery :=
  ⟨ToLowerList (query_utf8.getD []), NormalizeExtensionFilter extension_utf8,
   min_size, max_size, min_created_unix, max_created_unix,
   EffectiveLimit requested_limit⟩

/-- distribute_across_drives from the source: all-drives mode is on, the
limit exceeds one, the query substring is empty, and at least one of the
extension, size, or date filters is set. -/
def DistributeAcrossDrives (env : SearchEnv) (q : SearchQuery) : Bool :=
  env.g_scan_all_drives_mode && decide (1 < q.limit) && decide (q.query = []) &&
    (HasExtensionFilter q || HasSizeFilter q || HasDateFilter q)

/-- omni_search_files_json from the source (result rows before JSON
rendering): either the limited scan in stored index order, or the
bucket-and-round-robin assembly in all-drives distribution mode. -/
def omni_search_files_json (env : SearchEnv) (fs : FsModel)
    (query_utf8 extension_utf8 : Option (List Char)) (min_size max_size : Nat)
    (min_created_unix max_created_unix : Int) (requested_limit : Nat) :
    List SearchRow :=
  let q := MakeSearchQuery query_utf8 extension_utf8 min_size max_size
    min_created_unix max_created_unix requested_limit
  if DistributeAcrossDrives env q then
    let buckets := SearchBucketLoop fs q env.g_indexed_files []
    RoundRobinLoop (buckets.map (fun b => (b.2, 0))) [] q.limit
  else
    SearchScanLoop fs q env.g_indexed_files []

/-- Specification-side hit list: the filter applied to the indexed view in
stored order, with no early stop. -/
def SearchHits (fs : FsModel) (q : SearchQuery) (files : List IndexedFile) :
    List SearchRow :=
  files.filterMap (SearchHit fs q)

/-- Specification side: keys in first-encounter order. -/
def DedupKeysFirst (keys : List Char) : List Char :=
  keys.foldl (fun acc k => if k ∈ acc then acc else acc ++ [k]) []

/-- Specification side, from the spec text: hits bucketed by source drive
key in first-encounter order. -/
def SpecDriveBuckets (rows : List SearchRow) : List (List SearchRow) :=
  (DedupKeysFirst (rows.map (fun r => DriveBucketKeyFromPath r.path))).map
    (fun k => rows.filter (fun r => DriveBucketKeyFromPath r.path = k))

/-- Length of the longest bucket. -/
def MaxBucketLen (buckets : List (List SearchRow)) : Nat :=
  buckets.foldr (fun b m => max b.length m) 0

/-- Round k of the round-robin: the element at index k of every bucket
that still has one, in bucket order. -/
def RoundAt (buckets : List (List SearchRow)) (k : Nat) : List SearchRow :=
  buckets.filterMap (fun b => b.get? k)

/-- All rounds from round k on, concatenated. -/
def RoundsFrom (buckets : List (List SearchRow)) (k : Nat) : List SearchRow :=
  if k < MaxBucketLen buckets then RoundAt buckets k ++ RoundsFrom buckets (k + 1)
  else []
termination_by MaxBucketLen buckets - k

/-- Specification side, from the spec text: the result list assembled by
round-robin across the buckets until the limit or exhaustion. -/
def SpecRoundRobin (buckets : List (List SearchRow)) (limit : Nat) : List SearchRow :=
  (RoundsFrom buckets 0).take limit

/-- Specification-side restatement of the whole search call, following the
words of the spec: the distribution mode is engaged exactly under the
stated condition; in that mode the hits are bucketed by drive key in
first-encounter order and assembled round-robin, otherwise the first
limit hits are returned in stored index order. -/
def SpecSearchResult (env : SearchEnv) (fs : FsModel)
    (query_utf8 extension_utf8 : Option (List Char)) (min_size max_size : Nat)
    (min_created_unix max_created_unix : Int) (requested_limit : Nat) :
    List SearchRow :=
  let q := MakeSearchQuery query_utf8 extension_utf8 min_size max_size
    min_created_unix max_created_unix requested_limit
  let hits := SearchHits fs q env.g_indexed_files
  if env.g_scan_all_drives_mode ∧ 1 < q.limit ∧ q.query = [] ∧
      (HasExtensionFilter q = true ∨ HasSizeFilter q = true ∨ HasDateFilter q = true)
  then SpecRoundRobin (SpecDriveBuckets hits) q.limit
  else hits.take q.limit

/-- Stage 0 of the duplicate engine, the metadata sweep: directories and
files whose stat fails or whose size is below the minimum are discarded;
survivors carry their stat metadata, in snapshot order. -/
def DuplicateMetadataSweep (fs : FsModel) (min_size : Nat)
    (files : List IndexedFile) : List DuplicateFileRow :=
  files.filterMap (fun file =>
    if file.is_directory then none
    else
      match fs.stat file.path with
      | .error _ => none
      | .ok m =>
        if m.size < min_size then none
        else some ⟨file.name, file.path, m.size, m.created_unix, m.modified_unix⟩)

/-- Stage 1 bucketing: surviving files grouped by exact size, buckets in
first-encounter order. -/
def BuildSizeBuckets (rows : List DuplicateFileRow) : List (Nat × List DuplicateFileRow) :=
  rows.foldl (fun buckets r => AddToAssoc buckets r.size r) []

/-- A read of len bytes at the given offset, succeeding only when the full
requested length is available (ReadFile plus the read == requested check). -/
def ReadChunk (fs : FsModel) (path : List Char) (offset len : Nat) : Option (List Nat) :=
  let bytes := ((fs.content path).drop offset).take len
  if bytes.length = len then some bytes else none

/-- HashFileQuickSignature64 from the source: FNV over the size, then the
first chunk, then (only when the file is longer than one chunk) the last
chunk; files of size zero are hashed from the size alone with no reads. -/
def HashFileQuickSignature64 (fs : FsModel) (file : DuplicateFileRow) : Option Nat :=
  let hash0 := FNV1aMixU64 file.size kFNVOffsetBasis
  if file.size = 0 then some hash0
  else
    let first_bytes := min file.size 65536
    match ReadChunk fs file.path 0 first_bytes with
    | none => none
    | some bs =>
      let hash1 := FNV1aMixBuffer bs hash0
      if first_bytes < file.size then
        let tail_bytes := min file.size 65536
        match ReadChunk fs file.path (file.size - tail_bytes) tail_bytes with
        | none => none
        | some ts => some (FNV1aMixBuffer ts hash1)
      else some hash1

/-- HashFileFNV1a64 from the source, over the whole content (the model
does not fail sequential reads). -/
def HashFileFNV1a64 (fs : FsModel) (path : List Char) : Nat :=
  FNV1aMixBuffer (fs.content path) kFNVOffsetBasis

/-- AreFilesByteEqual from the source: the chunked memcmp loop decides
content equality. -/
def AreFilesByteEqual (fs : FsModel) (left_path right_path : List Char) : Bool :=
  decide (fs.content left_path = fs.content right_path)

/-- Hex rendering of a 64-bit value, lowercase, zero-padded to the width
(the snprintf %0Nllx of BuildDuplicateGroupId). -/
def HexPad (width value : Nat) : List Char :=
  let ds := Nat.toDigits 16 (value % 2 ^ 64)
  List.replicate (width - ds.length) '0' ++ ds

/-- BuildDuplicateGroupId from the source. -/
def BuildDuplicateGroupId (size hash_value serial : Nat) : List Char :=
  HexPad 16 size ++ '-' :: HexPad 16 hash_value ++ '-' :: HexPad 8 (serial % 2 ^ 32)

/-- The emission accumulator: emitted groups, the monotonic serial, and
the flag recording that the group cap was reached (the goto out of the
nested loops). -/
structure GroupAcc where
  groups : List DuplicateGroupRow
  serial : Nat
  stopped : Bool
deriving DecidableEq

/-- Emission of one verified cluster as a DuplicateGroupRow, including the
group-cap check. -/
def EmitGroup (max_groups max_files_per_group size hash_value : Nat)
    (rows : List DuplicateFileRow) (acc : GroupAcc) : GroupAcc :=
  if acc.stopped then acc
  else
    ⟨acc.groups ++
      [⟨BuildDuplicateGroupId size hash_value acc.serial, size,
        size * rows.length % 2 ^ 64, rows.length, rows.take max_files_per_group⟩],
     acc.serial + 1, decide (max_groups ≤ acc.groups.length + 1)⟩

/-- Stage 4 clustering: each candidate joins the first existing cluster
whose representative is byte-equal to it, or starts a new cluster. -/
def AddToVerifiedClusters (fs : FsModel) :
    List (List DuplicateFileRow) → DuplicateFileRow → List (List DuplicateFileRow)
  | [], cand => [[cand]]
  | cluster :: rest, cand =>
    if AreFilesByteEqual fs cand.path (cluster.headD default).path
    then (cluster ++ [cand]) :: rest
    else cluster :: AddToVerifiedClusters fs rest cand

/-- Processing of one full-hash bucket: clusters are verified byte-exactly
and every cluster of at least two files is emitted. -/
def ProcessHashBucket (fs : FsModel) (max_groups max_files_per_group file_size : Nat)
    (acc : GroupAcc) (bucket : Nat × List DuplicateFileRow) : GroupAcc :=
  if acc.stopped then acc
  else if bucket.2.length < 2 then acc
  else
    let clusters := bucket.2.foldl (AddToVerifiedClusters fs) []
    clusters.foldl
      (fun a cluster =>
        if cluster.length < 2 then a
        else EmitGroup max_groups max_files_per_group file_size bucket.1 cluster a)
      acc

/-- Processing of one quick-signature bucket: candidates are re-hashed over
the full contents, grouped by full hash, and each hash bucket is verified. -/
def ProcessQuickBucket (fs : FsModel) (max_groups max_files_per_group file_size : Nat)
    (acc : GroupAcc) (bucket : Nat × List DuplicateFileRow) : GroupAcc :=
  if acc.stopped then acc
  else if bucket.2.length < 2 then acc
  else
    let hash_buckets := bucket.2.foldl
      (fun bs r => AddToAssoc bs (HashFileFNV1a64 fs r.path) r) []
    hash_buckets.foldl (ProcessHashBucket fs max_groups max_files_per_group file_size) acc

/-- Processing of one size bucket: singletons are dropped, zero-byte
buckets are emitted directly with no reads, and other buckets go through
the quick-signature stage. -/
def ProcessSizeBucket (fs : FsModel) (max_groups max_files_per_group : Nat)
    (acc : GroupAcc) (bucket : Nat × List DuplicateFileRow) : GroupAcc :=
  if acc.stopped then acc
  else if bucket.2.length < 2 then acc
  else if bucket.1 = 0 then
    EmitGroup max_groups max_files_per_group 0 0 bucket.2 acc
  else
    let quick_pairs := bucket.2.filterMap
      (fun r => (HashFileQuickSignature64 fs r).map (fun h => (h, r)))
    let quick_buckets := quick_pairs.foldl (fun bs p => AddToAssoc bs p.1 p.2) []
    quick_buckets.foldl (ProcessQuickBucket fs max_groups max_files_per_group bucket.1) acc

/-- The reclaimable-bytes key of the final sort: size times fileCount - 1
on uint64. -/
def DuplicateGroupReclaimable (g : DuplicateGroupRow) : Nat :=
  g.size * (if 0 < g.file_count then g.file_count - 1 else 0) % 2 ^ 64

/-- The strict comparator handed to std::sort: descending reclaimable
bytes, ties broken by descending file count. -/
def DuplicateGroupCompare (l r : DuplicateGroupRow) : Bool :=
  decide (DuplicateGroupReclaimable r < DuplicateGroupReclaimable l ∨
    (DuplicateGroupReclaimable l = DuplicateGroupReclaimable r ∧
      r.file_count < l.file_count))

/-- The non-strict order induced by the comparator (l may stand before r). -/
def DuplicateGroupLe (l r : DuplicateGroupRow) : Bool := ! DuplicateGroupCompare r l

/-- Insertion into a list sorted by the given non-strict order. -/
def InsertSorted {α : Type} (le : α → α → Bool) (a : α) : List α → List α
  | [] => [a]
  | b :: rest => if le a b then a :: b :: rest else b :: InsertSorted le a rest

/-- Deterministic sort modelling std::sort with the given order (std::sort
leaves the order of tied elements unspecified; any order consistent with
the comparator is a valid refinement). -/
def SortBy {α : Type} (le : α → α → Bool) (l : List α) : List α :=
  l.foldr (InsertSorted le) []

/-- find_duplicates_internal from the source, for a run in which
cancellation is never requested: metadata sweep, size bucketing, quick
signature, full hash, byte-exact verification, emission with the group
cap, and the final sort. -/
def find_duplicates_internal (fs : FsModel) (min_size max_groups max_files_per_group : Nat)
    (indexed_snapshot : List IndexedFile) : List DuplicateGroupRow :=
  let rows := DuplicateMetadataSweep fs min_size indexed_snapshot
  let size_buckets := BuildSizeBuckets rows
  let acc := size_buckets.foldl
    (ProcessSizeBucket fs max_groups max_files_per_group) ⟨[], 0, false⟩
  SortBy DuplicateGroupLe acc.groups

/-- The globals of the duplicate engine that the status call reads. -/
structure DupGlobals where
  g_duplicate_scan_running : Bool
  g_duplicate_cancel_requested : Bool
  g_duplicate_progress_done : Nat
  g_duplicate_progress_total : Nat
  g_duplicate_groups_found : Nat
  g_last_error : List Char
deriving DecidableEq

/-- The text stored by the cancellation path of omni_find_duplicates_json. -/
def DuplicateScanCancelledText : List Char := "Duplicate scan cancelled.".toList

/-- The text stored when the index is not ready. -/
def IndexNotReadyText : List Char := "Index is not ready yet. Wait for indexing to finish.".toList

/-- The text stored when a duplicate scan is already running. -/
def AlreadyRunningText : List Char := "Duplicate scan is already running.".toList

/-- omni_find_duplicates_json from the source.  The boolean
cancel_requested_during_run stands for the value of the cancel flag at the
check performed after the internal run: the flag is only set while a scan
runs and is not cleared between the start of the run and that check, so it
is true exactly when cancellation was requested during some stage.  The
progress counters, whose intermediate values are timing-dependent, are not
modelled beyond their reset. -/
def omni_find_duplicates_json (st : DupGlobals) (is_ready : Bool) (fs : FsModel)
    (indexed_files : List IndexedFile)
    (min_size requested_max_groups requested_max_files_per_group : Nat)
    (cancel_requested_during_run : Bool) :
    Option (List DuplicateGroupRow) × DupGlobals :=
  if is_ready = false then
    (none, ⟨st.g_duplicate_scan_running, st.g_duplicate_cancel_requested,
      st.g_duplicate_progress_done, st.g_duplicate_progress_total,
      st.g_duplicate_groups_found, IndexNotReadyText⟩)
  else if st.g_duplicate_scan_running then
    (none, ⟨true, st.g_duplicate_cancel_requested,
      st.g_duplicate_progress_done, st.g_duplicate_progress_total,
      st.g_duplicate_groups_found, AlreadyRunningText⟩)
  else
    let effective_min_size := if min_size = 0 then 1048576 else min_size
    let max_groups := max 1 (min requested_max_groups 1000)
    let max_files_per_group := max 2 (min requested_max_files_per_group 400)
    let groups := find_duplicates_internal fs effective_min_size max_groups
      max_files_per_group indexed_files
    if cancel_requested_during_run then
      (none, ⟨false, false, 0, 0, 0, DuplicateScanCancelledText⟩)
    else
      (some groups, ⟨false, false, 0, 0, groups.length, st.g_last_error⟩)

/-- The globals touched synchronously by omni_start_indexing, plus the
normalized target drive handed to the background enumeration. -/
structure IndexingGlobals where
  g_indexing_request_token : Nat
  g_live_watcher_token : Nat
  g_is_indexing : Bool
  g_is_ready : Bool
  g_indexed_count : Nat
  g_last_error : List Char
  g_include_directories : Bool
  g_scan_all_drives_mode : Bool
  target_drive : List Char
deriving DecidableEq

/-- omni_start_indexing from the source: the synchronous prefix of the
call (token bump, flag resets, watcher stop, drive normalization, mode
stores) followed by the unconditional acceptance.  The detached background
enumeration is outside this model. -/
def omni_start_indexing (st : IndexingGlobals) (drive_utf8 : Option (List Char))
    (include_directories scan_all_drives : Bool) : Bool × IndexingGlobals :=
  (true,
   ⟨st.g_indexing_request_token + 1, st.g_live_watcher_token + 1, true, false, 0,
    [], include_directories, scan_all_drives, NormalizeDriveLetter drive_utf8⟩)

/-- A drive-rooted test path C:\a.txt. -/
def demoPathA : List Char := "C:\\a.txt".toList

/-- A drive-rooted test path D:\b.txt. -/
def demoPathB : List Char := "D:\\b.txt".toList

/-- Node table of a first demonstration volume: a root with FRN 1 and one
file a.txt with FRN 7. -/
def demoNodesC : List (Nat × NodeEntry) :=
  [(1, ⟨1, [], true⟩), (7, ⟨1, "a.txt".toList, false⟩)]

/-- Node table of a second demonstration volume: a root with FRN 2 and one
file b.txt that reuses FRN 7 (FRNs are volume-local identifiers). -/
def demoNodesD : List (Nat × NodeEntry) :=
  [(2, ⟨2, [], true⟩), (7, ⟨2, "b.txt".toList, false⟩)]

/-- The state published by an all-drives scan of the two demonstration
volumes. -/
def demoAllDrivesState : IndexState :=
  ApplyIndexedFilesOnlyLocked
    (([(demoNodesC, 1, ("C:\\".toList)), (demoNodesD, 2, ("D:\\".toList))].map
      (fun t => ProjectNodes t.1 t.2.1 t.2.2 false)).flatten)

/-- A node table whose parent chain is cyclic: 5 and 6 are each other's
parents. -/
def demoCyclicNodes : List (Nat × NodeEntry) :=
  [(5, ⟨6, "a".toList, true⟩), (6, ⟨5, "b".toList, true⟩)]

/-- A filesystem with exactly two zero-byte files at the demonstration
paths. -/
def demoZeroFs : FsModel :=
  ⟨fun _ => .ok ⟨0, 0, 0⟩, fun _ => []⟩

/-- An indexed snapshot holding the two demonstration files. -/
def demoTwoFiles : List IndexedFile :=
  [⟨7, "a.txt".toList, demoPathA, "txt".toList, false⟩,
   ⟨8, "b.txt".toList, demoPathB, "txt".toList, false⟩]

/-- A filesystem with two identical one-byte files at the demonstration
paths. -/
def demoOneByteFs : FsModel :=
  ⟨fun _ => .ok ⟨1, 10, 20⟩, fun _ => [7]⟩

/-- A quiescent duplicate-engine state. -/
def demoDupState : DupGlobals := ⟨false, false, 0, 0, 0, []⟩

/-- A filesystem whose stat always fails with ERROR_ACCESS_DENIED (5),
which is not a path-missing code. -/
def demoDeniedFs : FsModel :=
  ⟨fun _ => .error 5, fun _ => []⟩

/-- A filesystem whose stat always fails with ERROR_FILE_NOT_FOUND (2). -/
def demoMissingFs : FsModel :=
  ⟨fun _ => .error 2, fun _ => []⟩

/-- A query with no filters at all and the default limit. -/
def demoPlainQuery : SearchQuery :=
  MakeSearchQuery none none 0 (2 ^ 64 - 1) (-(2 ^ 63)) (2 ^ 63 - 1) 0

/-- Shape of an emitted duplicate group: at least two members, totalBytes
equal to size times fileCount on uint64, and files the truncation of a
cluster row list of length fileCount, in cluster order. -/
def GroupShape (max_files_per_group : Nat) (g : DuplicateGroupRow) : Prop :=
  2 ≤ g.file_count ∧ g.total_bytes = g.size * g.file_count % 2 ^ 64 ∧
  ∃ rows : List DuplicateFileRow, g.file_count = rows.length ∧
    g.files = rows.take max_files_per_group

/-!  Theorems.  -/

/-- C2: the FNV-1a-64 routine processes each byte as
hash = (hash XOR byte) * 0x100000001b3 on uint64, but on the empty input
it returns the constant written in the source, 1469598103934665603, which
is not the published FNV-1a-64 offset basis 0xcbf29ce484222325
(= 14695981039346656037): the source constant dropped the final digit. -/
theorem fnv_empty_input_not_published_basis :
    (∀ hash byte : Nat,
      FNV1aMixByte hash byte = ((hash ^^^ byte) * 0x100000001b3) % 2 ^ 64) ∧
    FNV1aMixBuffer [] kFNVOffsetBasis = 1469598103934665603 ∧
    kFNVOffsetBasis ≠ 0xcbf29ce484222325 := by
  refine ⟨fun hash byte => rfl, by decide, by decide⟩

/-- C10: omni_start_indexing accepts every combination of inputs, and a
null, empty, or non-letter drive string is normalized to drive C. -/
theorem start_indexing_always_accepted :
    (∀ (st : IndexingGlobals) (drive_utf8 : Option (List Char))
      (include_directories scan_all_drives : Bool),
      (omni_start_indexing st drive_utf8 include_directories scan_all_drives).1 = true ∧
      (omni_start_indexing st drive_utf8 include_directories scan_all_drives).2.target_drive =
        NormalizeDriveLetter drive_utf8) ∧
    NormalizeDriveLetter none = ['C'] ∧
    NormalizeDriveLetter (some []) = ['C'] ∧
    (∀ (c : Char) (rest : List Char), (towupper c < 'A' ∨ 'Z' < towupper c) →
      NormalizeDriveLetter (some (c :: rest)) = ['C']) := by
  refine ⟨fun st d i a => ⟨rfl, rfl⟩, by decide, by decide, fun c rest h => ?_⟩
  simp [NormalizeDriveLetter, h]

/-- Witness for C10 at a concrete state and a non-letter drive string. -/
theorem start_indexing_always_accepted_witness :
    (omni_start_indexing ⟨0, 0, false, false, 0, [], false, false, []⟩
      (some ['1']) false true).1 = true ∧
    NormalizeDriveLetter (some ['1']) = ['C'] := by
  refine ⟨(start_indexing_always_accepted.1 _ _ _ _).1, ?_⟩
  exact start_indexing_always_accepted.2.2.2 '1' [] (by decide)

/-- A successful association-list lookup means the key occurs in the key list. -/
theorem lookup_mem_keys {β : Type} (l : List (Nat × β)) (k : Nat) (v : β)
    (h : l.lookup k = some v) : k ∈ l.map Prod.fst := by
  induction l with
  | nil => simp [List.lookup] at h
  | cons p rest ih =>
    obtain ⟨k1, v1⟩ := p
    by_cases hk : k = k1
    · simp [hk]
    · have hbeq : (k == k1) = false := by simp [hk]
      simp only [List.lookup, hbeq] at h
      simp only [List.map_cons, List.mem_cons]
      exact Or.inr (ih h)

/-- Filtering with a stronger predicate never yields a longer list. -/
theorem length_filter_mono {α : Type} (l : List α) (p q : α → Bool)
    (h : ∀ a, p a = true → q a = true) :
    (l.filter p).length ≤ (l.filter q).length := by
  induction l with
  | nil => simp
  | cons a rest ih =>
    by_cases hp : p a = true
    · simp [List.filter_cons, hp, h a hp, Nat.succ_le_succ ih]
    · cases hq : q a <;>
        simp [List.filter_cons, Bool.eq_false_iff.mpr hp, hq] <;> omega

/-- Entering the currently-resolving set strictly shrinks the count of
still-unvisited node-table keys. -/
theorem unresolved_count_decreases (nodes : List (Nat × NodeEntry)) (frn : Nat)
    (resolving : List Nat) (hmem : frn ∈ nodes.map Prod.fst)
    (hnot : frn ∉ resolving) :
    UnresolvedCount nodes (frn :: resolving) < UnresolvedCount nodes resolving := by
  unfold UnresolvedCount
  induction nodes with
  | nil => simp at hmem
  | cons p rest ih =>
    simp only [List.map_cons, List.mem_cons] at hmem
    by_cases hhead : p.1 = frn
    · have h1 : (decide (p.1 ∉ frn :: resolving)) = false := by simp [hhead]
      have h2 : (decide (p.1 ∉ resolving)) = true := by
        simp only [decide_eq_true_eq]
        exact hhead ▸ hnot
      have hle := length_filter_mono (rest.map Prod.fst)
        (fun k => decide (k ∉ frn :: resolving)) (fun k => decide (k ∉ resolving))
        (fun a ha => by
          simp only [decide_eq_true_eq] at ha ⊢
          intro hc; exact ha (List.mem_cons_of_mem _ hc))
      rw [List.map_cons, List.filter_cons, List.filter_cons,
        if_neg (by rw [h1]; simp), if_pos h2, List.length_cons]
      omega
    · have hmem2 : frn ∈ rest.map Prod.fst := by
        rcases hmem with h | h
        · exact absurd h.symm hhead
        · exact h
      have heq : (decide (p.1 ∉ frn :: resolving)) = (decide (p.1 ∉ resolving)) := by
        apply decide_eq_decide.mpr
        simp [List.mem_cons, hhead]
      have hlt := ih hmem2
      simp only [List.map_cons, List.filter_cons, heq]
      cases hres : (decide (p.1 ∉ resolving)) with
      | false => simpa using hlt
      | true =>
        simp only [if_true, List.length_cons]
        exact Nat.succ_lt_succ hlt

/-- C9: the path resolver terminates on every finite node table, cyclic
parent chains included: with fuel exceeding the number of node-table keys
outside the currently-resolving set, the resolver never runs out of fuel.
A node met twice in one resolution hits the currently-resolving set and
yields a failure instead of further recursion. -/
theorem resolver_never_out_of_fuel
    (nodes : List (Nat × NodeEntry)) (root_frn : Nat) (root_path : List Char) :
    ∀ (fuel frn : Nat) (cache : List (Nat × List Char)) (resolving : List Nat),
    UnresolvedCount nodes resolving < fuel →
    ResolvePathForFrn nodes root_frn root_path frn cache resolving fuel ≠
      ResolveOutcome.outOfFuel := by
  intro fuel
  induction fuel with
  | zero => intro frn cache resolving h; exact absurd h (Nat.not_lt_zero _)
  | succ fuel ih =>
    intro frn cache resolving h
    cases hc : cache.lookup frn with
    | some cached => simp [ResolvePathForFrn, hc]
    | none =>
      by_cases hroot : frn = root_frn
      · subst hroot
        simp [ResolvePathForFrn, hc]
      · cases hn : nodes.lookup frn with
        | none => simp [ResolvePathForFrn, hc, hroot, hn]
        | some node =>
          by_cases hres : frn ∈ resolving
          · simp [ResolvePathForFrn, hc, hroot, hn, hres]
          · have hmem := lookup_mem_keys nodes frn node hn
            have hdec := unresolved_count_decreases nodes frn resolving hmem hres
            have hih := ih node.parent_frn cache (frn :: resolving) (by omega)
            simp only [ResolvePathForFrn, hc, hroot, hn, hres, if_neg, if_false]
            cases hr : ResolvePathForFrn nodes root_frn root_path node.parent_frn
                cache (frn :: resolving) fuel with
            | failed => simp
            | resolved p c2 => simp
            | outOfFuel => exact absurd hr hih

/-- Witness for C9 on a concrete cyclic node table: resolving FRN 5 in the
two-node cycle with fuel 3 does not exhaust the fuel (it fails instead). -/
theorem resolver_never_out_of_fuel_witness :
    UnresolvedCount demoCyclicNodes [] < 3 ∧
    ResolvePathForFrn demoCyclicNodes 1 ("C:\\".toList) 5 [] [] 3 ≠
      ResolveOutcome.outOfFuel ∧
    ResolvePathForFrn demoCyclicNodes 1 ("C:\\".toList) 5 [] [] 3 =
      ResolveOutcome.failed := by
  refine ⟨by decide, ?_, by decide⟩
  exact resolver_never_out_of_fuel demoCyclicNodes 1 ("C:\\".toList) 3 5 [] []
    (by decide)

/-- C6: a search hit whose stat fails is dropped silently when the error
code is one of the path-missing codes; on any other stat failure it is
dropped when the size or date filter requires metadata, and otherwise kept
with zeroed size and times. -/
theorem search_stat_failure_handling
    (fs : FsModel) (q : SearchQuery) (file : IndexedFile) (code : Nat)
    (hstat : fs.stat file.path = .error code)
    (hsub : ContainsCaseInsensitive file.path q.query = true)
    (hext : ExtensionRejects q file = false) :
    SearchHit fs q file =
      (if IsPathMissingError code then none
       else if RequiresMetadata q then none
       else some ⟨file.name, file.path, file.extension_lower, 0, 0, 0,
         file.is_directory⟩) := by
  unfold SearchHit
  rw [hsub, hext, hstat]
  simp

/-- Witness for C6: a concrete hit whose stat fails with
ERROR_FILE_NOT_FOUND is dropped, and one whose stat fails with
ERROR_ACCESS_DENIED under no metadata filters is kept with zeroed fields. -/
theorem search_stat_failure_handling_witness :
    SearchHit demoMissingFs demoPlainQuery (demoTwoFiles.headD default) = none ∧
    SearchHit demoDeniedFs demoPlainQuery (demoTwoFiles.headD default) =
      some ⟨"a.txt".toList, demoPathA, "txt".toList, 0, 0, 0, false⟩ := by
  constructor
  · have h := search_stat_failure_handling demoMissingFs demoPlainQuery
      (demoTwoFiles.headD default) 2 rfl (by decide) (by decide)
    rw [h]; decide
  · have h := search_stat_failure_handling demoDeniedFs demoPlainQuery
      (demoTwoFiles.headD default) 5 rfl (by decide) (by decide)
    rw [h]; decide

/-- The assignment loop leaves keys it never writes untouched. -/
theorem assign_not_mem (l : List IndexedFile) :
    ∀ (i : Nat) (m : Nat → Option Nat) (f : Nat),
    f ∉ l.map (fun x => x.frn) → AssignPositionsFrom l i m f = m f := by
  induction l with
  | nil => intro i m f _; rfl
  | cons a rest ih =>
    intro i m f hf
    simp only [List.map_cons, List.mem_cons, not_or] at hf
    rw [AssignPositionsFrom, ih (i + 1) _ f hf.2, if_neg hf.1]

/-- On a duplicate-free file sequence, the assignment loop sends the FRN
stored at offset j to the shifted index i + j. -/
theorem assign_at_index (l : List IndexedFile)
    (hnd : (l.map (fun x => x.frn)).Nodup) :
    ∀ (i j : Nat) (m : Nat → Option Nat), j < l.length →
    AssignPositionsFrom l i m ((l.getD j default).frn) = some (i + j) := by
  induction l with
  | nil => intro i j m hj; simp at hj
  | cons a rest ih =>
    intro i j m hj
    simp only [List.map_cons, List.nodup_cons] at hnd
    match j with
    | 0 =>
      rw [AssignPositionsFrom, assign_not_mem rest (i + 1) _ _ (by simpa using hnd.1)]
      simp
    | k + 1 =>
      have hk : k < rest.length := by simpa using hj
      have := ih hnd.2 (i + 1) k m hk
      rw [AssignPositionsFrom]
      have hgd : ((a :: rest).getD (k + 1) default) = rest.getD k default := by
        simp [List.getD]
      rw [hgd]
      have harr : i + 1 + k = i + (k + 1) := by omega
      rw [ih hnd.2 (i + 1) k _ hk, harr]

/-- The emplace loop leaves keys it never writes untouched. -/
theorem emplace_not_mem (l : List IndexedFile) :
    ∀ (i : Nat) (m : Nat → Option Nat) (f : Nat),
    f ∉ l.map (fun x => x.frn) → EmplacePositionsFrom l i m f = m f := by
  induction l with
  | nil => intro i m f _; rfl
  | cons a rest ih =>
    intro i m f hf
    simp only [List.map_cons, List.mem_cons, not_or] at hf
    rw [EmplacePositionsFrom, ih (i + 1) _ f hf.2]
    simp [hf.1]

/-- On a duplicate-free file sequence, starting from a map that is empty
on all its FRNs, the emplace loop sends the FRN stored at offset j to the
shifted index i + j. -/
theorem emplace_at_index (l : List IndexedFile)
    (hnd : (l.map (fun x => x.frn)).Nodup) :
    ∀ (i j : Nat) (m : Nat → Option Nat),
    (∀ g ∈ l.map (fun x => x.frn), m g = none) → j < l.length →
    EmplacePositionsFrom l i m ((l.getD j default).frn) = some (i + j) := by
  induction l with
  | nil => intro i j m _ hj; simp at hj
  | cons a rest ih =>
    intro i j m hm hj
    simp only [List.map_cons, List.nodup_cons] at hnd
    have hma : m a.frn = none := hm a.frn (by simp)
    match j with
    | 0 =>
      rw [EmplacePositionsFrom,
        emplace_not_mem rest (i + 1) _ _ (by simpa using hnd.1)]
      simp [hma]
    | k + 1 =>
      have hk : k < rest.length := by simpa using hj
      have hgd : ((a :: rest).getD (k + 1) default) = rest.getD k default := by
        simp [List.getD]
      rw [EmplacePositionsFrom, hgd]
      have hm2 : ∀ g ∈ rest.map (fun x => x.frn),
          (fun k2 => if k2 = a.frn ∧ m k2 = none then some i else m k2) g = none := by
        intro g hg
        have hga : g ≠ a.frn := by
          intro hcontra
          exact hnd.1 (by simpa [hcontra] using hg)
        simp only [hga, false_and, if_false]
        exact hm g (by simp [hg])
      have harr : i + 1 + k = i + (k + 1) := by omega
      rw [ih hnd.2 (i + 1) k _ hm2 hk, harr]

/-- A duplicate-free FRN sequence makes the rebuilt assignment lookup exact. -/
theorem rebuild_lookup_exact (l : List IndexedFile)
    (hnd : (l.map (fun x => x.frn)).Nodup) :
    PositionsExact ⟨l, RebuildFilePositionLookupLocked l⟩ := by
  intro f j
  show RebuildFilePositionLookupLocked l f = some j ↔
    j < l.length ∧ (l.getD j default).frn = f
  rw [RebuildFilePositionLookupLocked]
  constructor
  · intro h
    by_cases hmem : f ∈ l.map (fun x => x.frn)
    · obtain ⟨x, hx, hxf⟩ := List.mem_map.mp hmem
      obtain ⟨k, hk, hxk⟩ := List.mem_iff_getElem.mp hx
      have hgd : (l.getD k default).frn = f := by
        rw [List.getD_eq_getElem l default hk, hxk, hxf]
      have hat := assign_at_index l hnd 0 k (fun _ => none) hk
      rw [hgd] at hat
      rw [hat] at h
      obtain rfl : k = j := by simpa using h
      exact ⟨hk, hgd⟩
    · rw [assign_not_mem l 0 _ f hmem] at h
      exact absurd h (by simp)
  · rintro ⟨hj, hgd⟩
    have hat := assign_at_index l hnd 0 j (fun _ => none) hj
    rw [hgd] at hat
    rw [hat]
    simp

/-- A duplicate-free FRN sequence makes the emplace-built lookup exact. -/
theorem emplace_lookup_exact (l : List IndexedFile)
    (hnd : (l.map (fun x => x.frn)).Nodup) :
    PositionsExact ⟨l, EmplacePositionsFrom l 0 (fun _ => none)⟩ := by
  intro f j
  show EmplacePositionsFrom l 0 (fun _ => none) f = some j ↔
    j < l.length ∧ (l.getD j default).frn = f
  have hm : ∀ g ∈ l.map (fun x => x.frn), (fun _ : Nat => (none : Option Nat)) g = none :=
    fun g _ => rfl
  constructor
  · intro h
    by_cases hmem : f ∈ l.map (fun x => x.frn)
    · obtain ⟨x, hx, hxf⟩ := List.mem_map.mp hmem
      obtain ⟨k, hk, hxk⟩ := List.mem_iff_getElem.mp hx
      have hgd : (l.getD k default).frn = f := by
        rw [List.getD_eq_getElem l default hk, hxk, hxf]
      have hat := emplace_at_index l hnd 0 k (fun _ => none) hm hk
      rw [hgd] at hat
      rw [hat] at h
      obtain rfl : k = j := by simpa using h
      exact ⟨hk, hgd⟩
    · rw [emplace_not_mem l 0 _ f hmem] at h
      exact absurd h (by simp)
  · rintro ⟨hj, hgd⟩
    have hat := emplace_at_index l hnd 0 j (fun _ => none) hm hj
    rw [hgd] at hat
    rw [hat]
    simp

/-- An exact position map forces pairwise-distinct FRNs in the sequence. -/
theorem exact_frns_nodup (s : IndexState) (h : PositionsExact s) :
    (s.files.map (fun x => x.frn)).Nodup := by
  rw [List.nodup_iff_getElem?_ne_getElem?]
  intro i j hij hj hcontra
  have hjlen : j < s.files.length := by simpa using hj
  have hilen : i < s.files.length := by omega
  rw [List.getElem?_eq_getElem hj, List.getElem?_eq_getElem (by omega)] at hcontra
  simp only [List.getElem_map, Option.some_inj] at hcontra
  have hri : s.positions (s.files[i].frn) = some i := by
    rw [h]
    exact ⟨hilen, by rw [List.getD_eq_getElem s.files default hilen]⟩
  have hrj : s.positions (s.files[j].frn) = some j := by
    rw [h]
    exact ⟨hjlen, by rw [List.getD_eq_getElem s.files default hjlen]⟩
  rw [← hcontra] at hrj
  rw [hri] at hrj
  obtain rfl : i = j := by simpa using hrj
  omega

/-- An exact position map satisfies the claimed P1 equation. -/
theorem exact_claim_p1 (s : IndexState) (h : PositionsExact s) :
    ∀ (i : Nat) (hi : i < s.files.length),
    s.positions ((s.files.get ⟨i, hi⟩).frn) = some i := by
  intro i hi
  rw [h]
  refine ⟨hi, ?_⟩
  rw [List.getD_eq_getElem s.files default hi]
  simp [List.get_eq_getElem]

/-- UpsertIndexedFileLocked preserves the exactness of the position map:
a new FRN is appended and registered at the tail index, an existing FRN is
replaced in place. -/
theorem upsert_exact (s : IndexState) (h : PositionsExact s) (frn : Nat)
    (name full_path : List Char) (is_directory : Bool) :
    PositionsExact (UpsertIndexedFileLocked s frn name full_path is_directory) := by
  intro f j
  unfold UpsertIndexedFileLocked
  cases hp : s.positions frn with
  | none =>
    set next : IndexedFile :=
      ⟨frn, name, full_path,
       if is_directory then [] else ExtractExtensionLower name, is_directory⟩ with hnext
    show (if f = frn then some s.files.length else s.positions f) = some j ↔
      j < (s.files ++ [next]).length ∧ ((s.files ++ [next]).getD j default).frn = f
    by_cases hf : f = frn
    · subst hf
      rw [if_pos rfl]
      constructor
      · intro hj
        obtain rfl : s.files.length = j := by simpa using hj
        refine ⟨by simp, ?_⟩
        rw [List.getD_eq_getElem _ default (by simp)]
        rw [List.getElem_concat_length s.files next _ rfl]
      · rintro ⟨hj, hgd⟩
        by_cases hjl : j < s.files.length
        · rw [List.getD_append _ _ _ _ hjl] at hgd
          have := (h f j).mpr ⟨hjl, hgd⟩
          rw [hp] at this
          exact absurd this (by simp)
        · have : j = s.files.length := by
            simp only [List.length_append, List.length_singleton] at hj
            omega
          simp [this]
    · rw [if_neg hf]
      constructor
      · intro hj
        obtain ⟨hjl, hgd⟩ := (h f j).mp hj
        exact ⟨by simp; omega, by rw [List.getD_append _ _ _ _ hjl]; exact hgd⟩
      · rintro ⟨hj, hgd⟩
        by_cases hjl : j < s.files.length
        · rw [List.getD_append _ _ _ _ hjl] at hgd
          exact (h f j).mpr ⟨hjl, hgd⟩
        · have hjeq : j = s.files.length := by
            simp only [List.length_append, List.length_singleton] at hj
            omega
          rw [hjeq, List.getD_eq_getElem _ default (by simp),
            List.getElem_concat_length s.files next _ rfl] at hgd
          exact absurd (hgd.symm.trans rfl) hf
  | some p =>
    set next : IndexedFile :=
      ⟨frn, name, full_path,
       if is_directory then [] else ExtractExtensionLower name, is_directory⟩ with hnext
    obtain ⟨hpl, hpf⟩ := (h frn p).mp hp
    show s.positions f = some j ↔
      j < (s.files.set p next).length ∧ ((s.files.set p next).getD j default).frn = f
    rw [List.length_set]
    constructor
    · intro hj
      obtain ⟨hjl, hgd⟩ := (h f j).mp hj
      refine ⟨hjl, ?_⟩
      by_cases hjp : j = p
      · subst hjp
        have hffrn : f = frn := by rw [← hpf, hgd]
        rw [List.getD_eq_getElem _ default (by simpa using hjl)]
        rw [List.getElem_set_self (by simpa using hjl)]
        exact hffrn.symm
      · rw [List.getD_eq_getElem _ default (by simpa using hjl),
          List.getElem_set_ne (show p ≠ j from by omega) (by simpa using hjl)]
        rw [← List.getD_eq_getElem s.files default hjl]
        exact hgd
    · rintro ⟨hjl, hgd⟩
      by_cases hjp : j = p
      · subst hjp
        rw [List.getD_eq_getElem _ default (by simpa using hjl),
          List.getElem_set_self (by simpa using hjl)] at hgd
        have hffrn : f = frn := hgd.symm
        subst hffrn
        rw [hp]
      · rw [List.getD_eq_getElem _ default (by simpa using hjl),
          List.getElem_set_ne (show p ≠ j from by omega) (by simpa using hjl),
          ← List.getD_eq_getElem s.files default hjl] at hgd
        exact (h f j).mpr ⟨hjl, hgd⟩

/-- Reading dropLast inside its length agrees with the original list. -/
theorem getD_dropLast {α : Type} (l : List α) (d : α) (j : Nat)
    (hj : j < l.length - 1) : l.dropLast.getD j d = l.getD j d := by
  have h1 : j < l.dropLast.length := by simp; omega
  rw [List.getD_eq_getElem _ d h1, List.getElem_dropLast,
    List.getD_eq_getElem _ d (by omega)]

/-- Equation of RemoveIndexedFileByFrnLocked when the FRN is not indexed. -/
theorem remove_eq_of_none (s : IndexState) (frn : Nat)
    (hp : s.positions frn = none) : RemoveIndexedFileByFrnLocked s frn = s := by
  unfold RemoveIndexedFileByFrnLocked
  rw [hp]

/-- Equation of RemoveIndexedFileByFrnLocked in the swap-with-last branch. -/
theorem remove_eq_swap (s : IndexState) (frn ri : Nat)
    (hp : s.positions frn = some ri) (hnl : ri ≠ s.files.length - 1) :
    RemoveIndexedFileByFrnLocked s frn =
      ⟨(s.files.set ri (s.files.getD (s.files.length - 1) default)).dropLast,
       fun k => if k = frn then none
                else if k = (s.files.getD (s.files.length - 1) default).frn then some ri
                else s.positions k⟩ := by
  unfold RemoveIndexedFileByFrnLocked
  rw [hp]
  exact if_pos hnl

/-- Equation of RemoveIndexedFileByFrnLocked when the removed entry is the
tail entry. -/
theorem remove_eq_last (s : IndexState) (frn ri : Nat)
    (hp : s.positions frn = some ri) (hnl : ¬ ri ≠ s.files.length - 1) :
    RemoveIndexedFileByFrnLocked s frn =
      ⟨s.files.dropLast, fun k => if k = frn then none else s.positions k⟩ := by
  unfold RemoveIndexedFileByFrnLocked
  rw [hp]
  exact if_neg hnl

/-- RemoveIndexedFileByFrnLocked preserves the exactness of the position
map: the tail element swapped into the hole is re-registered under its new
index and the removed FRN is erased. -/
theorem remove_exact (s : IndexState) (h : PositionsExact s) (frn : Nat) :
    PositionsExact (RemoveIndexedFileByFrnLocked s frn) := by
  intro f j
  cases hp : s.positions frn with
  | none => rw [remove_eq_of_none s frn hp]; exact h f j
  | some ri =>
    obtain ⟨hril, hrif⟩ := (h frn ri).mp hp
    by_cases hnl : ri ≠ s.files.length - 1
    · rw [remove_eq_swap s frn ri hp hnl]
      set moved := s.files.getD (s.files.length - 1) default with hmoved
      have hrilt : ri < s.files.length - 1 := by omega
      have hmpos : s.positions moved.frn = some (s.files.length - 1) :=
        (h moved.frn (s.files.length - 1)).mpr ⟨by omega, rfl⟩
      have hmne : moved.frn ≠ frn := by
        intro hcontra
        rw [hcontra, hp] at hmpos
        have h2 : s.files.length - 1 = ri := by simpa using hmpos.symm
        exact hnl h2.symm
      show (if f = frn then none
            else if f = moved.frn then some ri else s.positions f) = some j ↔
        j < ((s.files.set ri moved).dropLast).length ∧
        (((s.files.set ri moved).dropLast).getD j default).frn = f
    
      have hlen : ((s.files.set ri moved).dropLast).length = s.files.length - 1 := by
        simp
      have hget : ∀ (k : Nat), k < s.files.length - 1 →
          ((s.files.set ri moved).dropLast).getD k default =
            (if k = ri then moved else s.files.getD k default) := by
        intro k hk
        rw [getD_dropLast _ default k (by simpa using hk)]
        by_cases hkri : k = ri
        · subst hkri
          rw [if_pos rfl, List.getD_eq_getElem _ default (by simp; omega),
            List.getElem_set_self]
        · rw [if_neg hkri, List.getD_eq_getElem _ default (by simp; omega),
            List.getElem_set_ne (show ri ≠ k from fun hc => hkri hc.symm)
              (by simp; omega),
            ← List.getD_eq_getElem s.files default (by omega)]
      rw [hlen]
      by_cases hf : f = frn
      · subst hf
        rw [if_pos rfl]
        constructor
        · intro hc; exact absurd hc (by simp)
        · rintro ⟨hj, hgd⟩
          rw [hget j hj] at hgd
          by_cases hjri : j = ri
          · rw [if_pos hjri] at hgd
            exact absurd hgd hmne
          · rw [if_neg hjri] at hgd
            have h4 := (h f j).mpr ⟨by omega, hgd⟩
            rw [hp] at h4
            have h5 : ri = j := by simpa using h4
            exact absurd h5.symm hjri
      · rw [if_neg hf]
        by_cases hfm : f = moved.frn
        · subst hfm
          rw [if_pos rfl]
          constructor
          · intro hj
            obtain rfl : ri = j := by simpa using hj
            exact ⟨hrilt, by rw [hget ri hrilt, if_pos rfl]⟩
          · rintro ⟨hj, hgd⟩
            rw [hget j hj] at hgd
            by_cases hjri : j = ri
            · rw [hjri]
            · rw [if_neg hjri] at hgd
              have h4 := (h moved.frn j).mpr ⟨by omega, hgd⟩
              rw [hmpos] at h4
              have h5 : s.files.length - 1 = j := by simpa using h4
              exact absurd h5.symm (by omega)
        · rw [if_neg hfm]
          constructor
          · intro hj
            obtain ⟨hjl, hgd⟩ := (h f j).mp hj
            have hjri : j ≠ ri := by
              intro hc
              rw [hc, hrif] at hgd
              exact hf hgd.symm
            have hjlast : j ≠ s.files.length - 1 := by
              intro hc
              rw [hc, ← hmoved] at hgd
              exact hfm hgd.symm
            refine ⟨by omega, ?_⟩
            rw [hget j (by omega), if_neg hjri]
            exact hgd
          · rintro ⟨hj, hgd⟩
            rw [hget j hj] at hgd
            by_cases hjri : j = ri
            · rw [if_pos hjri] at hgd
              exact absurd hgd.symm hfm
            · rw [if_neg hjri] at hgd
              exact (h f j).mpr ⟨by omega, hgd⟩
    · rw [remove_eq_last s frn ri hp hnl]
      have hri : ri = s.files.length - 1 := by
        by_contra hc
        exact hnl hc
      show (if f = frn then none else s.positions f) = some j ↔
        j < (s.files.dropLast).length ∧ ((s.files.dropLast).getD j default).frn = f
      have hlen : (s.files.dropLast).length = s.files.length - 1 := by simp
      rw [hlen]
      by_cases hf : f = frn
      · subst hf
        rw [if_pos rfl]
        constructor
        · intro hc; exact absurd hc (by simp)
        · rintro ⟨hj, hgd⟩
          rw [getD_dropLast _ default j hj] at hgd
          have h4 := (h f j).mpr ⟨by omega, hgd⟩
          rw [hp] at h4
          have h5 : ri = j := by simpa using h4
          exact absurd h5.symm (by omega)
      · rw [if_neg hf]
        constructor
        · intro hj
          obtain ⟨hjl, hgd⟩ := (h f j).mp hj
          have hjlast : j ≠ s.files.length - 1 := by
            intro hc
            rw [hc, ← hri, hrif] at hgd
            exact hf hgd.symm
          refine ⟨by omega, ?_⟩
          rw [getD_dropLast _ default j (by omega)]
          exact hgd
        · rintro ⟨hj, hgd⟩
          rw [getD_dropLast _ default j hj] at hgd
          exact (h f j).mpr ⟨by omega, hgd⟩

/-- The FRNs of the projected files form a sublist of the node-table keys:
each table entry contributes at most one file, carrying its own FRN. -/
theorem projectGo_frns_sublist (nodes : List (Nat × NodeEntry)) (root_frn : Nat)
    (root_path : List Char) (include_directories : Bool) (fuel : Nat) :
    ∀ (l : List (Nat × NodeEntry)) (cache : List (Nat × List Char)),
    ((ProjectNodesGo nodes root_frn root_path include_directories fuel l cache).map
      (fun x => x.frn)).Sublist (l.map Prod.fst) := by
  intro l
  induction l with
  | nil => intro cache; simp [ProjectNodesGo]
  | cons p rest ih =>
    intro cache
    obtain ⟨frn, node⟩ := p
    rw [ProjectNodesGo]
    by_cases hskip : node.name = [] ∨ (node.is_directory = true ∧ ¬ include_directories = true)
    · rw [if_pos hskip]
      exact (ih cache).cons frn
    · rw [if_neg hskip]
      split
      · rename_i full_path cache2 heq
        by_cases hemp : full_path = []
        · rw [if_pos hemp]
          exact (ih cache2).cons frn
        · rw [if_neg hemp]
          simp only [List.map_cons]
          exact (ih cache2).cons₂ frn
      · exact (ih cache).cons frn

/-- Unique node-table keys give a projection with pairwise-distinct FRNs. -/
theorem project_frns_nodup (nodes : List (Nat × NodeEntry)) (root_frn : Nat)
    (root_path : List Char) (include_directories : Bool)
    (hkeys : (nodes.map Prod.fst).Nodup) :
    ((ProjectNodes nodes root_frn root_path include_directories).map
      (fun x => x.frn)).Nodup :=
  (projectGo_frns_sublist nodes root_frn root_path include_directories
    (nodes.length + 1) nodes [(root_frn, root_path)]).nodup hkeys

/-- Every state reachable without the all-drives publication has an exact
position map. -/
theorem reachable_single_exact (b : Bool) (s : IndexState)
    (h : ReachableIndex b s) (hb : b = false) : PositionsExact s := by
  induction h with
  | init _ =>
    intro f j
    constructor
    · intro hc; exact absurd hc (by simp)
    · rintro ⟨hj, _⟩; simp at hj
  | publish_scan b s nodes root_frn root_path include_directories hkeys _ _ =>
    exact rebuild_lookup_exact _
      (project_frns_nodup nodes root_frn root_path include_directories hkeys)
  | publish_all_drives s snaps include_directories hkeys _ _ =>
    exact absurd hb (by simp)
  | upsert b s frn name full_path is_directory _ ih =>
    exact upsert_exact s (ih hb) frn name full_path is_directory
  | remove b s frn _ ih =>
    exact remove_exact s (ih hb) frn
  | rebuild b s nodes root_frn root_path include_directories hkeys _ _ =>
    unfold RebuildIndexedFilesFromNodesLocked
    by_cases hguard : root_frn = 0 ∨ root_path = [] ∨ nodes = []
    · rw [if_pos hguard]
      intro f j
      constructor
      · intro hc; exact absurd hc (by simp)
      · rintro ⟨hj, _⟩; simp at hj
    · rw [if_neg hguard]
      exact emplace_lookup_exact _
        (project_frns_nodup nodes root_frn root_path include_directories hkeys)

/-- C1 (amended): for every index state reachable by single-volume
full-scan publication, live-watcher upsert, live-watcher removal, and
full rebuild from the node table, the position map satisfies
positions(files(i).frn) = i for every index i, and no FRN appears twice;
in particular the swap-with-last removal re-registers the swapped tail
element under its new index.  (The all-drives publication is excluded:
see the counterexample.) -/
theorem index_position_invariant (s : IndexState)
    (h : ReachableIndex false s) :
    (∀ (i : Nat) (hi : i < s.files.length),
      s.positions ((s.files.get ⟨i, hi⟩).frn) = some i) ∧
    (s.files.map (fun x => x.frn)).Nodup := by
  have hex := reachable_single_exact false s h rfl
  exact ⟨exact_claim_p1 s hex, exact_frns_nodup s hex⟩

/-- Witness for C1: after inserting FRNs 7 and 8 and removing FRN 7, the
swapped tail element 8 is registered at its new index 0 and the FRNs are
duplicate-free. -/
theorem index_position_invariant_witness :
    (RemoveIndexedFileByFrnLocked
      (UpsertIndexedFileLocked
        (UpsertIndexedFileLocked ⟨[], fun _ => none⟩ 7 ("a.txt".toList) demoPathA false)
        8 ("b.txt".toList) demoPathB false) 7).positions 8 = some 0 ∧
    ((RemoveIndexedFileByFrnLocked
      (UpsertIndexedFileLocked
        (UpsertIndexedFileLocked ⟨[], fun _ => none⟩ 7 ("a.txt".toList) demoPathA false)
        8 ("b.txt".toList) demoPathB false) 7).files.map (fun x => x.frn)).Nodup := by
  have hreach : ReachableIndex false
      (RemoveIndexedFileByFrnLocked
        (UpsertIndexedFileLocked
          (UpsertIndexedFileLocked ⟨[], fun _ => none⟩ 7 ("a.txt".toList) demoPathA false)
          8 ("b.txt".toList) demoPathB false) 7) :=
    ReachableIndex.remove false _ 7
      (ReachableIndex.upsert false _ 8 ("b.txt".toList) demoPathB false
        (ReachableIndex.upsert false _ 7 ("a.txt".toList) demoPathA false
          (ReachableIndex.init false)))
  have h := index_position_invariant _ hreach
  exact ⟨h.1 0 (by decide), h.2⟩

/-- Counterexample for C1 as stated: the all-drives publication is also a
full-scan publication, and publishing the concatenation of two volumes
that share FRN 7 yields a reachable state in which FRN 7 appears twice
and the position of the first occurrence is wrong. -/
theorem index_position_invariant_counterexample :
    ReachableIndex true demoAllDrivesState ∧
    demoAllDrivesState.files.length = 2 ∧
    (demoAllDrivesState.files.getD 0 default).frn = 7 ∧
    demoAllDrivesState.positions 7 = some 1 ∧
    ¬ (demoAllDrivesState.files.map (fun x => x.frn)).Nodup := by
  refine ⟨?_, by decide, by decide, by decide, by decide⟩
  exact ReachableIndex.publish_all_drives (⟨[], fun _ => none⟩ : IndexState)
    [(demoNodesC, 1, ("C:\\".toList)), (demoNodesD, 2, ("D:\\".toList))] false
    (by decide) (ReachableIndex.init true)

/-- C7: when cancellation is requested during any stage of a duplicate
scan (so the cancel flag is true at the post-run check), the call returns
a null result, and afterwards the status flags show running = false and
cancelRequested = false, with the last-error text containing the word
cancelled. -/
theorem duplicate_scan_cancellation (st : DupGlobals) (fs : FsModel)
    (indexed_files : List IndexedFile)
    (min_size requested_max_groups requested_max_files : Nat)
    (hrun : st.g_duplicate_scan_running = false) :
    (omni_find_duplicates_json st true fs indexed_files min_size
      requested_max_groups requested_max_files true).1 = none ∧
    (omni_find_duplicates_json st true fs indexed_files min_size
      requested_max_groups requested_max_files true).2.g_duplicate_scan_running = false ∧
    (omni_find_duplicates_json st true fs indexed_files min_size
      requested_max_groups requested_max_files true).2.g_duplicate_cancel_requested = false ∧
    ContainsSubstring
      (omni_find_duplicates_json st true fs indexed_files min_size
        requested_max_groups requested_max_files true).2.g_last_error
      ("cancelled".toList) = true := by
  unfold omni_find_duplicates_json
  rw [hrun]
  refine ⟨rfl, rfl, rfl, ?_⟩
  show ContainsSubstring DuplicateScanCancelledText ("cancelled".toList) = true
  decide

/-- Witness for C7 at a concrete quiescent state. -/
theorem duplicate_scan_cancellation_witness :
    (omni_find_duplicates_json demoDupState true demoZeroFs demoTwoFiles 0 10 10
      true).1 = none ∧
    (omni_find_duplicates_json demoDupState true demoZeroFs demoTwoFiles 0 10 10
      true).2.g_duplicate_scan_running = false ∧
    (omni_find_duplicates_json demoDupState true demoZeroFs demoTwoFiles 0 10 10
      true).2.g_duplicate_cancel_requested = false ∧
    ContainsSubstring
      (omni_find_duplicates_json demoDupState true demoZeroFs demoTwoFiles 0 10 10
        true).2.g_last_error ("cancelled".toList) = true :=
  duplicate_scan_cancellation demoDupState demoZeroFs demoTwoFiles 0 10 10 rfl

/-- Generic preservation of an invariant along a left fold. -/
theorem foldl_invariant {α β : Type} (Inv : β → Prop) (Q : α → Prop)
    (f : β → α → β) (l : List α)
    (hstep : ∀ acc x, Inv acc → Q x → Inv (f acc x)) :
    ∀ (init : β), Inv init → (∀ x ∈ l, Q x) → Inv (l.foldl f init) := by
  induction l with
  | nil => intro init hinit _; exact hinit
  | cons x rest ih =>
    intro init hinit hl
    exact ih (f init x) (hstep init x hinit (hl x (by simp)))
      (fun y hy => hl y (by simp [hy]))

/-- Every survivor of the metadata sweep is at least the minimum size. -/
theorem sweep_sizes (fs : FsModel) (min_size : Nat) (files : List IndexedFile) :
    ∀ r ∈ DuplicateMetadataSweep fs min_size files, min_size ≤ r.size := by
  intro r hr
  unfold DuplicateMetadataSweep at hr
  obtain ⟨file, _, hsome⟩ := List.mem_filterMap.mp hr
  by_cases hdir : file.is_directory = true
  · simp [hdir] at hsome
  · rw [if_neg hdir] at hsome
    cases hstat : fs.stat file.path with
    | error c => rw [hstat] at hsome; exact absurd hsome (by simp)
    | ok m =>
      rw [hstat] at hsome
      have hsome2 : (if m.size < min_size then none
          else some (⟨file.name, file.path, m.size, m.created_unix,
            m.modified_unix⟩ : DuplicateFileRow)) = some r := hsome
      by_cases hsz : m.size < min_size
      · rw [if_pos hsz] at hsome2
        exact absurd hsome2 (by simp)
      · rw [if_neg hsz] at hsome2
        obtain rfl : (⟨file.name, file.path, m.size, m.created_unix,
            m.modified_unix⟩ : DuplicateFileRow) = r := Option.some_inj.mp hsome2
        exact Nat.le_of_not_lt hsz

/-- Members of an association bucket built by AddToAssoc folds: each
bucket is nonempty and holds values inserted under its own key. -/
theorem addToAssoc_invariant {κ α : Type} [DecidableEq κ] (P : κ → α → Prop)
    (buckets : List (κ × List α)) (key : κ) (a : α) (hPa : P key a)
    (hinv : ∀ b ∈ buckets, b.2 ≠ [] ∧ ∀ x ∈ b.2, P b.1 x) :
    ∀ b ∈ AddToAssoc buckets key a, b.2 ≠ [] ∧ ∀ x ∈ b.2, P b.1 x := by
  induction buckets with
  | nil =>
    intro b hb
    simp only [AddToAssoc, List.mem_singleton] at hb
    subst hb
    exact ⟨by simp, fun x hx => by
      obtain rfl : x = a := by simpa using hx
      exact hPa⟩
  | cons c rest ih =>
    obtain ⟨k0, items⟩ := c
    intro b hb
    by_cases hk : k0 = key
    · rw [AddToAssoc, if_pos hk] at hb
      rcases List.mem_cons.mp hb with hb1 | hb2
      · subst hb1
        refine ⟨by simp, fun x hx => ?_⟩
        rcases List.mem_append.mp hx with hx1 | hx2
        · exact (hinv (k0, items) (by simp)).2 x hx1
        · obtain rfl : x = a := by simpa using hx2
          exact hk ▸ hPa
      · exact hinv b (by simp [hb2])
    · rw [AddToAssoc, if_neg hk] at hb
      rcases List.mem_cons.mp hb with hb1 | hb2
      · subst hb1
        exact hinv (k0, items) (by simp)
      · exact ih (fun c hc => hinv c (by simp [hc])) b hb2

/-- Every size bucket is nonempty and holds only sweep rows of its size. -/
theorem buildSizeBuckets_invariant (rows : List DuplicateFileRow) :
    ∀ b ∈ BuildSizeBuckets rows, b.2 ≠ [] ∧ ∀ r ∈ b.2, r ∈ rows ∧ r.size = b.1 := by
  unfold BuildSizeBuckets
  have := foldl_invariant
    (fun buckets => ∀ b ∈ buckets, b.2 ≠ [] ∧ ∀ r ∈ b.2, (r ∈ rows ∧ r.size = b.1))
    (fun r => r ∈ rows)
    (fun buckets r => AddToAssoc buckets r.size r) rows
    (fun acc x hacc hx =>
      addToAssoc_invariant (fun k r => r ∈ rows ∧ r.size = k) acc x.size x
        ⟨hx, rfl⟩ hacc)
    [] (by simp) (fun x hx => hx)
  exact this

/-- Membership is preserved by sorted insertion. -/
theorem mem_insertSorted {α : Type} (le : α → α → Bool) (a x : α) :
    ∀ (l : List α), x ∈ InsertSorted le a l ↔ x = a ∨ x ∈ l := by
  intro l
  induction l with
  | nil => simp [InsertSorted]
  | cons b rest ih =>
    by_cases hle : le a b = true
    · simp only [InsertSorted, if_pos hle, List.mem_cons]
    · simp only [InsertSorted, if_neg hle, List.mem_cons, ih]
      tauto

/-- Membership is preserved by the deterministic sort. -/
theorem mem_sortBy {α : Type} (le : α → α → Bool) (x : α) :
    ∀ (l : List α), x ∈ SortBy le l ↔ x ∈ l := by
  intro l
  induction l with
  | nil => simp [SortBy]
  | cons b rest ih =>
    show x ∈ InsertSorted le b (SortBy le rest) ↔ x ∈ b :: rest
    rw [mem_insertSorted, ih, List.mem_cons]

/-- Emission preserves a lower bound on group sizes when the emitted size
respects it. -/
theorem emit_group_min_size (min_size max_groups max_files_per_group size hash_value : Nat)
    (rows : List DuplicateFileRow) (acc : GroupAcc) (hsz : min_size ≤ size)
    (hacc : ∀ g ∈ acc.groups, min_size ≤ g.size) :
    ∀ g ∈ (EmitGroup max_groups max_files_per_group size hash_value rows acc).groups,
      min_size ≤ g.size := by
  intro g hg
  unfold EmitGroup at hg
  by_cases hstop : acc.stopped = true
  · rw [if_pos hstop] at hg
    exact hacc g hg
  · rw [if_neg hstop] at hg
    have hg2 : g ∈ acc.groups ++
        [⟨BuildDuplicateGroupId size hash_value acc.serial, size,
          size * rows.length % 2 ^ 64, rows.length,
          rows.take max_files_per_group⟩] := hg
    rcases List.mem_append.mp hg2 with h1 | h2
    · exact hacc g h1
    · obtain rfl : g = _ := by simpa using h2
      exact hsz

/-- The byte-exact verification stage only emits groups at its bucket
size. -/
theorem processHash_min_size (fs : FsModel)
    (min_size max_groups max_files_per_group file_size : Nat) (acc : GroupAcc)
    (bucket : Nat × List DuplicateFileRow) (hsz : min_size ≤ file_size)
    (hacc : ∀ g ∈ acc.groups, min_size ≤ g.size) :
    ∀ g ∈ (ProcessHashBucket fs max_groups max_files_per_group file_size acc
      bucket).groups, min_size ≤ g.size := by
  unfold ProcessHashBucket
  by_cases hstop : acc.stopped = true
  · rw [if_pos hstop]; exact hacc
  · rw [if_neg hstop]
    by_cases hlen : bucket.2.length < 2
    · rw [if_pos hlen]; exact hacc
    · rw [if_neg hlen]
      exact foldl_invariant (fun a => ∀ g ∈ a.groups, min_size ≤ g.size)
        (fun _ => True)
        (fun a cluster =>
          if cluster.length < 2 then a
          else EmitGroup max_groups max_files_per_group file_size bucket.1
            cluster a)
        (bucket.2.foldl (AddToVerifiedClusters fs) [])
        (fun (a : GroupAcc) (cluster : List DuplicateFileRow) ha _ => by
          show ∀ g ∈ (if cluster.length < 2 then a
            else EmitGroup max_groups max_files_per_group file_size bucket.1
              cluster a).groups, min_size ≤ g.size
          by_cases hc : cluster.length < 2
          · rw [if_pos hc]; exact ha
          · rw [if_neg hc]
            exact emit_group_min_size min_size max_groups max_files_per_group
              file_size bucket.1 cluster a hsz ha)
        acc hacc (fun _ _ => trivial)

/-- The full-hash stage only emits groups at its bucket size. -/
theorem processQuick_min_size (fs : FsModel)
    (min_size max_groups max_files_per_group file_size : Nat) (acc : GroupAcc)
    (bucket : Nat × List DuplicateFileRow) (hsz : min_size ≤ file_size)
    (hacc : ∀ g ∈ acc.groups, min_size ≤ g.size) :
    ∀ g ∈ (ProcessQuickBucket fs max_groups max_files_per_group file_size acc
      bucket).groups, min_size ≤ g.size := by
  unfold ProcessQuickBucket
  by_cases hstop : acc.stopped = true
  · rw [if_pos hstop]; exact hacc
  · rw [if_neg hstop]
    by_cases hlen : bucket.2.length < 2
    · rw [if_pos hlen]; exact hacc
    · rw [if_neg hlen]
      exact foldl_invariant (fun a => ∀ g ∈ a.groups, min_size ≤ g.size)
        (fun _ => True)
        (ProcessHashBucket fs max_groups max_files_per_group file_size)
        ((bucket.2.foldl
          (fun bs r => AddToAssoc bs (HashFileFNV1a64 fs r.path) r) []))
        (fun (a : GroupAcc) (b : Nat × List DuplicateFileRow) ha _ =>
          processHash_min_size fs min_size max_groups
            max_files_per_group file_size a b hsz ha)
        acc hacc (fun _ _ => trivial)

/-- A size bucket at or above the minimum size only contributes groups at
or above the minimum size. -/
theorem processSize_min_size (fs : FsModel)
    (min_size max_groups max_files_per_group : Nat) (acc : GroupAcc)
    (bucket : Nat × List DuplicateFileRow) (hkey : min_size ≤ bucket.1)
    (hacc : ∀ g ∈ acc.groups, min_size ≤ g.size) :
    ∀ g ∈ (ProcessSizeBucket fs max_groups max_files_per_group acc
      bucket).groups, min_size ≤ g.size := by
  unfold ProcessSizeBucket
  by_cases hstop : acc.stopped = true
  · rw [if_pos hstop]; exact hacc
  · rw [if_neg hstop]
    by_cases hlen : bucket.2.length < 2
    · rw [if_pos hlen]; exact hacc
    · rw [if_neg hlen]
      by_cases hzero : bucket.1 = 0
      · rw [if_pos hzero]
        exact emit_group_min_size min_size max_groups max_files_per_group 0 0
          bucket.2 acc (by omega) hacc
      · rw [if_neg hzero]
        exact foldl_invariant (fun a => ∀ g ∈ a.groups, min_size ≤ g.size)
          (fun _ => True)
          (ProcessQuickBucket fs max_groups max_files_per_group bucket.1)
          (((bucket.2.filterMap
              (fun r => (HashFileQuickSignature64 fs r).map (fun h => (h, r)))).foldl
            (fun bs p => AddToAssoc bs p.1 p.2) []))
          (fun (a : GroupAcc) (b : Nat × List DuplicateFileRow) ha _ =>
            processQuick_min_size fs min_size max_groups
              max_files_per_group bucket.1 a b hkey ha)
          acc hacc (fun _ _ => trivial)

/-- Every group produced by the internal duplicate pipeline has at least
the minimum file size. -/
theorem internal_min_size (fs : FsModel)
    (min_size max_groups max_files_per_group : Nat) (files : List IndexedFile) :
    ∀ g ∈ find_duplicates_internal fs min_size max_groups max_files_per_group
      files, min_size ≤ g.size := by
  intro g hg
  have hg2 : g ∈ SortBy DuplicateGroupLe
      ((BuildSizeBuckets (DuplicateMetadataSweep fs min_size files)).foldl
        (ProcessSizeBucket fs max_groups max_files_per_group)
        ⟨[], 0, false⟩).groups := hg
  rw [mem_sortBy] at hg2
  have hbuckets : ∀ b ∈ BuildSizeBuckets (DuplicateMetadataSweep fs min_size files),
      min_size ≤ b.1 := by
    intro b hb
    obtain ⟨hne, hall⟩ :=
      buildSizeBuckets_invariant (DuplicateMetadataSweep fs min_size files) b hb
    obtain ⟨r, hr⟩ := List.exists_mem_of_ne_nil b.2 hne
    obtain ⟨hrrows, hrsz⟩ := hall r hr
    rw [← hrsz]
    exact sweep_sizes fs min_size files r hrrows
  exact foldl_invariant (fun a => ∀ g2 ∈ a.groups, min_size ≤ g2.size)
    (fun b => min_size ≤ b.1)
    (ProcessSizeBucket fs max_groups max_files_per_group)
    (BuildSizeBuckets (DuplicateMetadataSweep fs min_size files))
    (fun (a : GroupAcc) (b : Nat × List DuplicateFileRow) ha hb =>
      processSize_min_size fs min_size max_groups
        max_files_per_group a b hb ha)
    ⟨[], 0, false⟩ (by simp) hbuckets g hg2

/-- C3 (amended): through the public entry point the effective minimum
size is never below one byte (zero maps to the 1 MiB default), the
metadata sweep discards every file below it, and therefore every emitted
group, and in particular its size bucket, has size at least the effective
minimum; zero-byte files are never grouped and the zero-byte fast path in
the bucketing stage is unreachable from the entry point. -/
theorem zero_byte_files_never_grouped (st : DupGlobals) (fs : FsModel)
    (indexed_files : List IndexedFile) (min_size mg mf : Nat)
    (gs : List DuplicateGroupRow) (st2 : DupGlobals)
    (hrun : st.g_duplicate_scan_running = false)
    (hcall : omni_find_duplicates_json st true fs indexed_files min_size mg mf
      false = (some gs, st2)) :
    ∀ g ∈ gs, 1 ≤ g.size ∧ (if min_size = 0 then 1048576 else min_size) ≤ g.size := by
  unfold omni_find_duplicates_json at hcall
  rw [hrun] at hcall
  have hfst : (some (find_duplicates_internal fs
      (if min_size = 0 then 1048576 else min_size)
      (max 1 (min mg 1000)) (max 2 (min mf 400)) indexed_files) :
      Option (List DuplicateGroupRow)) = some gs :=
    congrArg Prod.fst hcall
  have hgs : gs = find_duplicates_internal fs
      (if min_size = 0 then 1048576 else min_size)
      (max 1 (min mg 1000)) (max 2 (min mf 400)) indexed_files :=
    (Option.some_inj.mp hfst).symm
  intro g hg
  have hmin := internal_min_size fs (if min_size = 0 then 1048576 else min_size)
    (max 1 (min mg 1000)) (max 2 (min mf 400)) indexed_files g (hgs ▸ hg)
  refine ⟨?_, hmin⟩
  by_cases h0 : min_size = 0
  · rw [if_pos h0] at hmin; omega
  · rw [if_neg h0] at hmin; omega

/-- Counterexample for C3 as stated: a snapshot holding exactly two
zero-byte files, scanned with the default minimum (minSize argument 0),
produces no duplicate group at all; the zero-byte files are never grouped
because the metadata sweep drops them below the 1 MiB effective minimum. -/
theorem zero_byte_files_never_grouped_counterexample :
    demoTwoFiles.length = 2 ∧
    (∀ f ∈ demoTwoFiles,
      demoZeroFs.stat f.path = .ok ⟨0, 0, 0⟩ ∧ f.is_directory = false) ∧
    (omni_find_duplicates_json demoDupState true demoZeroFs demoTwoFiles 0 1000
      400 false).1 = some [] := by
  refine ⟨rfl, ?_, by decide⟩
  intro f hf
  fin_cases hf <;> exact ⟨rfl, rfl⟩

/-- Witness for the amended C3: a successful run over two identical
one-byte files emits one group whose size respects the minimum. -/
theorem zero_byte_files_never_grouped_witness :
    ((omni_find_duplicates_json demoDupState true demoOneByteFs demoTwoFiles 1
      1000 400 false).1.getD []).length = 1 ∧
    1 ≤ (((omni_find_duplicates_json demoDupState true demoOneByteFs
      demoTwoFiles 1 1000 400 false).1.getD []).getD 0 default).size := by
  refine ⟨by decide, ?_⟩
  have h := zero_byte_files_never_grouped demoDupState demoOneByteFs demoTwoFiles
    1 1000 400
    ((omni_find_duplicates_json demoDupState true demoOneByteFs demoTwoFiles 1
      1000 400 false).1.getD [])
    (omni_find_duplicates_json demoDupState true demoOneByteFs demoTwoFiles 1
      1000 400 false).2
    rfl (by decide)
  exact (h _ (by decide)).1

/-- The non-strict order of the final sort, unfolded: descending
reclaimable bytes, ties broken by descending file count. -/
theorem dupLe_iff (l r : DuplicateGroupRow) :
    DuplicateGroupLe l r = true ↔
      (DuplicateGroupReclaimable r ≤ DuplicateGroupReclaimable l ∧
       (DuplicateGroupReclaimable l = DuplicateGroupReclaimable r →
         r.file_count ≤ l.file_count)) := by
  unfold DuplicateGroupLe DuplicateGroupCompare
  simp only [Bool.not_eq_true', decide_eq_false_iff_not, not_or, not_and, not_lt]
  constructor
  · intro h
    exact ⟨h.1, fun he => by
      rcases Nat.eq_or_lt_of_le (h.1) with h1 | h1
      · exact h.2 he.symm
      · exact h.2 he.symm⟩
  · intro h
    exact ⟨h.1, fun he => h.2 he.symm⟩

/-- The sort order is total. -/
theorem dupLe_total (l r : DuplicateGroupRow) :
    DuplicateGroupLe l r = true ∨ DuplicateGroupLe r l = true := by
  rw [dupLe_iff, dupLe_iff]
  omega

/-- The sort order is transitive. -/
theorem dupLe_trans (a b c : DuplicateGroupRow) (h1 : DuplicateGroupLe a b = true)
    (h2 : DuplicateGroupLe b c = true) : DuplicateGroupLe a c = true := by
  rw [dupLe_iff] at h1 h2 ⊢
  omega

/-- Sorted insertion preserves pairwise sortedness for a total transitive
order. -/
theorem pairwise_insertSorted {α : Type} (le : α → α → Bool)
    (htot : ∀ a b, le a b = true ∨ le b a = true)
    (htrans : ∀ a b c, le a b = true → le b c = true → le a c = true) (a : α) :
    ∀ (l : List α), l.Pairwise (fun x y => le x y = true) →
    (InsertSorted le a l).Pairwise (fun x y => le x y = true) := by
  intro l
  induction l with
  | nil => intro _; simp [InsertSorted]
  | cons b rest ih =>
    intro h
    rw [List.pairwise_cons] at h
    obtain ⟨hb, hrest⟩ := h
    by_cases hle : le a b = true
    · rw [InsertSorted, if_pos hle, List.pairwise_cons]
      refine ⟨?_, List.pairwise_cons.mpr ⟨hb, hrest⟩⟩
      intro y hy
      rcases List.mem_cons.mp hy with rfl | hy2
      · exact hle
      · exact htrans a b y hle (hb y hy2)
    · rw [InsertSorted, if_neg hle, List.pairwise_cons]
      constructor
      · intro y hy
        rw [mem_insertSorted] at hy
        rcases hy with h0 | hy2
        · rw [h0]
          rcases htot a b with h1 | h2
          · exact absurd h1 hle
          · exact h2
        · exact hb y hy2
      · exact ih hrest

/-- The deterministic sort produces a pairwise-sorted list for a total
transitive order. -/
theorem pairwise_sortBy {α : Type} (le : α → α → Bool)
    (htot : ∀ a b, le a b = true ∨ le b a = true)
    (htrans : ∀ a b c, le a b = true → le b c = true → le a c = true) :
    ∀ (l : List α), (SortBy le l).Pairwise (fun x y => le x y = true) := by
  intro l
  induction l with
  | nil => simp [SortBy]
  | cons b rest ih =>
    show (InsertSorted le b (SortBy le rest)).Pairwise _
    exact pairwise_insertSorted le htot htrans b _ ih

/-- Emission preserves the group-shape invariant when the emitted cluster
has at least two rows. -/
theorem emit_group_shape (max_groups max_files_per_group size hash_value : Nat)
    (rows : List DuplicateFileRow) (acc : GroupAcc) (h2 : 2 ≤ rows.length)
    (hacc : ∀ g ∈ acc.groups, GroupShape max_files_per_group g) :
    ∀ g ∈ (EmitGroup max_groups max_files_per_group size hash_value rows
      acc).groups, GroupShape max_files_per_group g := by
  intro g hg
  unfold EmitGroup at hg
  by_cases hstop : acc.stopped = true
  · rw [if_pos hstop] at hg
    exact hacc g hg
  · rw [if_neg hstop] at hg
    have hg2 : g ∈ acc.groups ++
        [⟨BuildDuplicateGroupId size hash_value acc.serial, size,
          size * rows.length % 2 ^ 64, rows.length,
          rows.take max_files_per_group⟩] := hg
    rcases List.mem_append.mp hg2 with h1 | hmem
    · exact hacc g h1
    · obtain rfl : g = _ := by simpa using hmem
      exact ⟨h2, rfl, rows, rfl, rfl⟩

/-- The byte-exact verification stage only emits well-shaped groups. -/
theorem processHash_shape (fs : FsModel)
    (max_groups max_files_per_group file_size : Nat) (acc : GroupAcc)
    (bucket : Nat × List DuplicateFileRow)
    (hacc : ∀ g ∈ acc.groups, GroupShape max_files_per_group g) :
    ∀ g ∈ (ProcessHashBucket fs max_groups max_files_per_group file_size acc
      bucket).groups, GroupShape max_files_per_group g := by
  unfold ProcessHashBucket
  by_cases hstop : acc.stopped = true
  · rw [if_pos hstop]; exact hacc
  · rw [if_neg hstop]
    by_cases hlen : bucket.2.length < 2
    · rw [if_pos hlen]; exact hacc
    · rw [if_neg hlen]
      exact foldl_invariant (fun a => ∀ g ∈ a.groups, GroupShape max_files_per_group g)
        (fun _ => True)
        (fun a cluster =>
          if cluster.length < 2 then a
          else EmitGroup max_groups max_files_per_group file_size bucket.1
            cluster a)
        (bucket.2.foldl (AddToVerifiedClusters fs) [])
        (fun (a : GroupAcc) (cluster : List DuplicateFileRow) ha _ => by
          show ∀ g ∈ (if cluster.length < 2 then a
            else EmitGroup max_groups max_files_per_group file_size bucket.1
              cluster a).groups, GroupShape max_files_per_group g
          by_cases hc : cluster.length < 2
          · rw [if_pos hc]; exact ha
          · rw [if_neg hc]
            exact emit_group_shape max_groups max_files_per_group file_size
              bucket.1 cluster a (by omega) ha)
        acc hacc (fun _ _ => trivial)

/-- The full-hash stage only emits well-shaped groups. -/
theorem processQuick_shape (fs : FsModel)
    (max_groups max_files_per_group file_size : Nat) (acc : GroupAcc)
    (bucket : Nat × List DuplicateFileRow)
    (hacc : ∀ g ∈ acc.groups, GroupShape max_files_per_group g) :
    ∀ g ∈ (ProcessQuickBucket fs max_groups max_files_per_group file_size acc
      bucket).groups, GroupShape max_files_per_group g := by
  unfold ProcessQuickBucket
  by_cases hstop : acc.stopped = true
  · rw [if_pos hstop]; exact hacc
  · rw [if_neg hstop]
    by_cases hlen : bucket.2.length < 2
    · rw [if_pos hlen]; exact hacc
    · rw [if_neg hlen]
      exact foldl_invariant (fun a => ∀ g ∈ a.groups, GroupShape max_files_per_group g)
        (fun _ => True)
        (ProcessHashBucket fs max_groups max_files_per_group file_size)
        ((bucket.2.foldl
          (fun bs r => AddToAssoc bs (HashFileFNV1a64 fs r.path) r) []))
        (fun (a : GroupAcc) (b : Nat × List DuplicateFileRow) ha _ =>
          processHash_shape fs max_groups max_files_per_group file_size a b ha)
        acc hacc (fun _ _ => trivial)

/-- The size-bucket stage only emits well-shaped groups. -/
theorem processSize_shape (fs : FsModel) (max_groups max_files_per_group : Nat)
    (acc : GroupAcc) (bucket : Nat × List DuplicateFileRow)
    (hacc : ∀ g ∈ acc.groups, GroupShape max_files_per_group g) :
    ∀ g ∈ (ProcessSizeBucket fs max_groups max_files_per_group acc
      bucket).groups, GroupShape max_files_per_group g := by
  unfold ProcessSizeBucket
  by_cases hstop : acc.stopped = true
  · rw [if_pos hstop]; exact hacc
  · rw [if_neg hstop]
    by_cases hlen : bucket.2.length < 2
    · rw [if_pos hlen]; exact hacc
    · rw [if_neg hlen]
      by_cases hzero : bucket.1 = 0
      · rw [if_pos hzero]
        exact emit_group_shape max_groups max_files_per_group 0 0 bucket.2 acc
          (by omega) hacc
      · rw [if_neg hzero]
        exact foldl_invariant (fun a => ∀ g ∈ a.groups, GroupShape max_files_per_group g)
          (fun _ => True)
          (ProcessQuickBucket fs max_groups max_files_per_group bucket.1)
          (((bucket.2.filterMap
              (fun r => (HashFileQuickSignature64 fs r).map (fun h => (h, r)))).foldl
            (fun bs p => AddToAssoc bs p.1 p.2) []))
          (fun (a : GroupAcc) (b : Nat × List DuplicateFileRow) ha _ =>
            processQuick_shape fs max_groups max_files_per_group bucket.1 a b ha)
          acc hacc (fun _ _ => trivial)

/-- Every group of the internal pipeline is well shaped. -/
theorem internal_shape (fs : FsModel)
    (min_size max_groups max_files_per_group : Nat) (files : List IndexedFile) :
    ∀ g ∈ find_duplicates_internal fs min_size max_groups max_files_per_group
      files, GroupShape max_files_per_group g := by
  intro g hg
  have hg2 : g ∈ SortBy DuplicateGroupLe
      ((BuildSizeBuckets (DuplicateMetadataSweep fs min_size files)).foldl
        (ProcessSizeBucket fs max_groups max_files_per_group)
        ⟨[], 0, false⟩).groups := hg
  rw [mem_sortBy] at hg2
  exact foldl_invariant (fun a => ∀ g2 ∈ a.groups, GroupShape max_files_per_group g2)
    (fun _ => True)
    (ProcessSizeBucket fs max_groups max_files_per_group)
    (BuildSizeBuckets (DuplicateMetadataSweep fs min_size files))
    (fun (a : GroupAcc) (b : Nat × List DuplicateFileRow) ha _ =>
      processSize_shape fs max_groups max_files_per_group a b ha)
    ⟨[], 0, false⟩ (by simp) (fun _ _ => trivial) g hg2

/-- C4: every emitted group has fileCount equal to its verified cluster
size, totalBytes equal to size times fileCount on uint64, and its files
list the truncation of the cluster rows (bucket order) to at most
maxFilesPerGroup entries; the final list is sorted by descending
reclaimable bytes with ties broken by descending fileCount. -/
theorem duplicate_group_emission (fs : FsModel)
    (min_size max_groups max_files_per_group : Nat) (files : List IndexedFile) :
    (find_duplicates_internal fs min_size max_groups max_files_per_group
      files).Pairwise
      (fun l r => DuplicateGroupReclaimable r ≤ DuplicateGroupReclaimable l ∧
        (DuplicateGroupReclaimable l = DuplicateGroupReclaimable r →
          r.file_count ≤ l.file_count)) ∧
    ∀ g ∈ find_duplicates_internal fs min_size max_groups max_files_per_group
      files,
      2 ≤ g.file_count ∧ g.total_bytes = g.size * g.file_count % 2 ^ 64 ∧
      g.files.length = min g.file_count max_files_per_group ∧
      ∃ rows : List DuplicateFileRow, g.file_count = rows.length ∧
        g.files = rows.take max_files_per_group := by
  constructor
  · have hp := pairwise_sortBy DuplicateGroupLe dupLe_total dupLe_trans
      ((BuildSizeBuckets (DuplicateMetadataSweep fs min_size files)).foldl
        (ProcessSizeBucket fs max_groups max_files_per_group)
        ⟨[], 0, false⟩).groups
    exact List.Pairwise.imp (fun hle => (dupLe_iff _ _).mp hle) hp
  · intro g hg
    obtain ⟨h2, htb, rows, hrc, hrf⟩ :=
      internal_shape fs min_size max_groups max_files_per_group files g hg
    refine ⟨h2, htb, ?_, rows, hrc, hrf⟩
    rw [hrf, List.length_take, hrc, Nat.min_comm]

/-- Witness for C4 on the concrete one-byte duplicate pair. -/
theorem duplicate_group_emission_witness :
    2 ≤ ((find_duplicates_internal demoOneByteFs 1 1000 5
      demoTwoFiles).getD 0 default).file_count ∧
    ((find_duplicates_internal demoOneByteFs 1 1000 5
      demoTwoFiles).getD 0 default).total_bytes =
      ((find_duplicates_internal demoOneByteFs 1 1000 5
        demoTwoFiles).getD 0 default).size *
      ((find_duplicates_internal demoOneByteFs 1 1000 5
        demoTwoFiles).getD 0 default).file_count % 2 ^ 64 := by
  have h := (duplicate_group_emission demoOneByteFs 1 1000 5 demoTwoFiles).2
    ((find_duplicates_internal demoOneByteFs 1 1000 5 demoTwoFiles).getD 0
      default) (by decide)
  exact ⟨h.1, h.2.1⟩

/-- The accumulation loop with early stop equals taking a prefix of the
full hit list. -/
theorem searchScanLoop_eq_take (fs : FsModel) (q : SearchQuery)
    (hlim : 1 ≤ q.limit) :
    ∀ (files : List IndexedFile) (rows : List SearchRow),
    rows.length < q.limit →
    SearchScanLoop fs q files rows =
      rows ++ (SearchHits fs q files).take (q.limit - rows.length) := by
  intro files
  induction files with
  | nil => intro rows _; simp [SearchScanLoop, SearchHits]
  | cons f rest ih =>
    intro rows hrows
    cases hhit : SearchHit fs q f with
    | none =>
      have hunfold : SearchScanLoop fs q (f :: rest) rows =
          SearchScanLoop fs q rest rows := by
        rw [SearchScanLoop, hhit]
      have hhits : SearchHits fs q (f :: rest) = SearchHits fs q rest := by
        rw [SearchHits, SearchHits, List.filterMap_cons_none hhit]
      rw [hunfold, hhits, ih rows hrows]
    | some row =>
      have hunfold : SearchScanLoop fs q (f :: rest) rows =
          (if q.limit ≤ (rows ++ [row]).length then rows ++ [row]
           else SearchScanLoop fs q rest (rows ++ [row])) := by
        rw [SearchScanLoop, hhit]
      have hhits : SearchHits fs q (f :: rest) = row :: SearchHits fs q rest := by
        rw [SearchHits, SearchHits, List.filterMap_cons_some hhit]
      rw [hunfold, hhits]
      by_cases hbr : q.limit ≤ (rows ++ [row]).length
      · rw [if_pos hbr]
        have h1 : q.limit - rows.length = 1 := by
          simp only [List.length_append, List.length_singleton] at hbr
          omega
        rw [h1]
        simp
      · rw [if_neg hbr]
        have hlt : (rows ++ [row]).length < q.limit := Nat.lt_of_not_le hbr
        rw [ih (rows ++ [row]) hlt]
        have hk : q.limit - rows.length = (q.limit - (rows ++ [row]).length) + 1 := by
          simp only [List.length_append, List.length_singleton] at hlt ⊢
          omega
        rw [hk, List.take_succ_cons]
        simp

/-- C8: a requested limit of zero yields the default of 200, any other
request is capped at 5000, the effective limit is between 1 and 5000, and
outside the all-drives distribution mode the scan returns exactly the
first effective-limit hits in stored index order, hence at most that many
rows. -/
theorem search_limit_cap (env : SearchEnv) (fs : FsModel)
    (query_utf8 extension_utf8 : Option (List Char)) (min_size max_size : Nat)
    (min_created_unix max_created_unix : Int) (requested_limit : Nat) :
    (requested_limit = 0 → EffectiveLimit requested_limit = 200) ∧
    (requested_limit ≠ 0 →
      EffectiveLimit requested_limit = min requested_limit 5000) ∧
    1 ≤ EffectiveLimit requested_limit ∧ EffectiveLimit requested_limit ≤ 5000 ∧
    (DistributeAcrossDrives env (MakeSearchQuery query_utf8 extension_utf8
        min_size max_size min_created_unix max_created_unix requested_limit) =
        false →
      omni_search_files_json env fs query_utf8 extension_utf8 min_size max_size
          min_created_unix max_created_unix requested_limit =
        (SearchHits fs (MakeSearchQuery query_utf8 extension_utf8 min_size
          max_size min_created_unix max_created_unix requested_limit)
          env.g_indexed_files).take (EffectiveLimit requested_limit) ∧
      (omni_search_files_json env fs query_utf8 extension_utf8 min_size max_size
        min_created_unix max_created_unix requested_limit).length ≤
        EffectiveLimit requested_limit) := by
  have hlim : 1 ≤ EffectiveLimit requested_limit := by
    unfold EffectiveLimit
    by_cases h0 : requested_limit = 0
    · rw [if_pos h0]; omega
    · rw [if_neg h0]
      have : 1 ≤ requested_limit := Nat.one_le_iff_ne_zero.mpr h0
      omega
  refine ⟨fun h0 => by rw [EffectiveLimit, if_pos h0],
    fun h0 => by rw [EffectiveLimit, if_neg h0], hlim, ?_, ?_⟩
  · unfold EffectiveLimit
    by_cases h0 : requested_limit = 0
    · rw [if_pos h0]; omega
    · rw [if_neg h0]; omega
  · intro hfalse
    have hbody : omni_search_files_json env fs query_utf8 extension_utf8
        min_size max_size min_created_unix max_created_unix requested_limit =
        (if DistributeAcrossDrives env (MakeSearchQuery query_utf8 extension_utf8
            min_size max_size min_created_unix max_created_unix requested_limit) =
            true then
          RoundRobinLoop
            (((SearchBucketLoop fs (MakeSearchQuery query_utf8 extension_utf8
              min_size max_size min_created_unix max_created_unix requested_limit)
              env.g_indexed_files []).map (fun b => (b.2, 0)))) []
            (MakeSearchQuery query_utf8 extension_utf8 min_size max_size
              min_created_unix max_created_unix requested_limit).limit
         else
          SearchScanLoop fs (MakeSearchQuery query_utf8 extension_utf8 min_size
            max_size min_created_unix max_created_unix requested_limit)
            env.g_indexed_files []) := rfl
    rw [hbody, hfalse]
    simp only [Bool.false_eq_true, if_false]
    have hscan := searchScanLoop_eq_take fs
      (MakeSearchQuery query_utf8 extension_utf8 min_size max_size
        min_created_unix max_created_unix requested_limit) hlim
      env.g_indexed_files [] (by simpa using hlim)
    rw [hscan]
    simp only [List.nil_append, Nat.sub_zero]
    constructor
    · rfl
    · show ((SearchHits fs (MakeSearchQuery query_utf8 extension_utf8 min_size
          max_size min_created_unix max_created_unix requested_limit)
          env.g_indexed_files).take (EffectiveLimit requested_limit)).length ≤
        EffectiveLimit requested_limit
      rw [List.length_take]
      omega

/-- Witness for C8: the default limit, the cap, and the bound at a
concrete search. -/
theorem search_limit_cap_witness :
    EffectiveLimit 0 = 200 ∧ EffectiveLimit 9999 = 5000 ∧
    (omni_search_files_json ⟨demoTwoFiles, false⟩ demoOneByteFs none none 0
      (2 ^ 64 - 1) (-(2 ^ 63)) (2 ^ 63 - 1) 0).length ≤ 200 := by
  have h := search_limit_cap ⟨demoTwoFiles, false⟩ demoOneByteFs none none 0
    (2 ^ 64 - 1) (-(2 ^ 63)) (2 ^ 63 - 1) 0
  refine ⟨h.1 rfl, ?_, ?_⟩
  · have h2 := (search_limit_cap ⟨demoTwoFiles, false⟩ demoOneByteFs none none 0
      (2 ^ 64 - 1) (-(2 ^ 63)) (2 ^ 63 - 1) 9999).2.1 (by omega)
    omega
  · exact (h.2.2.2.2 (by decide)).2

/-- A produced search row carries the path of its indexed file. -/
theorem searchHit_path (fs : FsModel) (q : SearchQuery) (file : IndexedFile)
    (row : SearchRow) (h : SearchHit fs q file = some row) :
    row.path = file.path := by
  unfold SearchHit at h
  by_cases hc : (! ContainsCaseInsensitive file.path q.query) = true
  · rw [if_pos hc] at h
    exact absurd h (by simp)
  · rw [if_neg hc] at h
    by_cases he : ExtensionRejects q file = true
    · rw [if_pos he] at h
      exact absurd h (by simp)
    · rw [if_neg he] at h
      cases hstat : fs.stat file.path with
      | error code =>
        rw [hstat] at h
        have h2 : (if IsPathMissingError code then none
            else if RequiresMetadata q then none
            else some (⟨file.name, file.path, file.extension_lower, 0, 0, 0,
              file.is_directory⟩ : SearchRow)) = some row := h
        by_cases hm : IsPathMissingError code = true
        · rw [if_pos hm] at h2
          exact absurd h2 (by simp)
        · rw [if_neg hm] at h2
          by_cases hr : RequiresMetadata q = true
          · rw [if_pos hr] at h2
            exact absurd h2 (by simp)
          · rw [if_neg hr] at h2
            obtain rfl := Option.some_inj.mp h2
            rfl
      | ok m =>
        rw [hstat] at h
        have h2 : (if RequiresMetadata q ∧
            (m.size < q.min_size ∨ q.max_size < m.size ∨
             m.created_unix < q.min_created_unix ∨
             q.max_created_unix < m.created_unix) then none
            else some (⟨file.name, file.path, file.extension_lower, m.size,
              m.created_unix, m.modified_unix, file.is_directory⟩ : SearchRow)) =
            some row := h
        by_cases hcond : RequiresMetadata q ∧
            (m.size < q.min_size ∨ q.max_size < m.size ∨
             m.created_unix < q.min_created_unix ∨
             q.max_created_unix < m.created_unix)
        · rw [if_pos hcond] at h2
          exact absurd h2 (by simp)
        · rw [if_neg hcond] at h2
          obtain rfl := Option.some_inj.mp h2
          rfl

/-- The distribution-mode scan is the fold of bucket insertion over the
hit list. -/
theorem searchBucketLoop_eq_foldl (fs : FsModel) (q : SearchQuery) :
    ∀ (files : List IndexedFile) (buckets : List (Char × List SearchRow)),
    SearchBucketLoop fs q files buckets =
      (SearchHits fs q files).foldl
        (fun bs r => AddToAssoc bs (DriveBucketKeyFromPath r.path) r) buckets := by
  intro files
  induction files with
  | nil => intro buckets; simp [SearchBucketLoop, SearchHits]
  | cons f rest ih =>
    intro buckets
    cases hhit : SearchHit fs q f with
    | none =>
      have hunfold : SearchBucketLoop fs q (f :: rest) buckets =
          SearchBucketLoop fs q rest buckets := by
        rw [SearchBucketLoop, hhit]
      have hh : SearchHits fs q (f :: rest) = SearchHits fs q rest := by
        unfold SearchHits
        rw [List.filterMap_cons_none hhit]
      rw [hunfold, ih, hh]
    | some row =>
      have hunfold : SearchBucketLoop fs q (f :: rest) buckets =
          SearchBucketLoop fs q rest
            (AddToAssoc buckets (DriveBucketKeyFromPath f.path) row) := by
        rw [SearchBucketLoop, hhit]
      have hh : SearchHits fs q (f :: rest) = row :: SearchHits fs q rest := by
        unfold SearchHits
        rw [List.filterMap_cons_some hhit]
      rw [hunfold, ih, hh, List.foldl_cons, searchHit_path fs q f row hhit]

/-- Membership in the first-encounter deduplication fold. -/
theorem mem_dedup_fold (ks : List Char) :
    ∀ (acc : List Char) (k : Char),
    k ∈ ks.foldl (fun a x => if x ∈ a then a else a ++ [x]) acc ↔
      k ∈ acc ∨ k ∈ ks := by
  induction ks with
  | nil => intro acc k; simp
  | cons x rest ih =>
    intro acc k
    rw [List.foldl_cons]
    by_cases hx : x ∈ acc
    · rw [if_pos hx, ih]
      constructor
      · rintro (h | h)
        · exact Or.inl h
        · exact Or.inr (List.mem_cons_of_mem x h)
      · rintro (h | h)
        · exact Or.inl h
        · rcases List.mem_cons.mp h with rfl | h2
          · exact Or.inl hx
          · exact Or.inr h2
    · rw [if_neg hx, ih]
      simp only [List.mem_append, List.mem_singleton, List.mem_cons]
      tauto

/-- Membership in DedupKeysFirst is membership in the original keys. -/
theorem mem_dedupKeysFirst (ks : List Char) (k : Char) :
    k ∈ DedupKeysFirst ks ↔ k ∈ ks := by
  unfold DedupKeysFirst
  rw [mem_dedup_fold]
  simp

/-- The first-encounter deduplication fold keeps distinct keys distinct. -/
theorem nodup_dedup_fold (ks : List Char) :
    ∀ (acc : List Char), acc.Nodup →
    (ks.foldl (fun a x => if x ∈ a then a else a ++ [x]) acc).Nodup := by
  induction ks with
  | nil => intro acc h; simpa using h
  | cons x rest ih =>
    intro acc hacc
    rw [List.foldl_cons]
    by_cases hx : x ∈ acc
    · rw [if_pos hx]
      exact ih acc hacc
    · rw [if_neg hx]
      refine ih (acc ++ [x]) ?_
      rw [List.nodup_append]
      refine ⟨hacc, by simp, ?_⟩
      intro a ha hb
      simp only [List.mem_singleton] at hb
      exact hx (hb ▸ ha)

/-- The deduplicated key list has no duplicates. -/
theorem nodup_dedupKeysFirst (ks : List Char) : (DedupKeysFirst ks).Nodup :=
  nodup_dedup_fold ks [] (by simp)

/-- Inserting under a key already present appends to that key's bucket. -/
theorem addToAssoc_present (keys : List Char) (g : Char → List SearchRow)
    (k : Char) (x : SearchRow) (hk : k ∈ keys) (hnd : keys.Nodup) :
    AddToAssoc (keys.map (fun k2 => (k2, g k2))) k x =
      keys.map (fun k2 => (k2, if k2 = k then g k2 ++ [x] else g k2)) := by
  induction keys with
  | nil => simp at hk
  | cons a t ih =>
    rw [List.map_cons, List.map_cons]
    rw [List.nodup_cons] at hnd
    by_cases hak : a = k
    · rw [AddToAssoc, if_pos hak, if_pos hak]
      congr 1
      apply List.map_congr_left
      intro b hb
      have hbk : b ≠ k := fun hc => hnd.1 (hak ▸ hc ▸ hb)
      rw [if_neg hbk]
    · rw [AddToAssoc, if_neg hak, if_neg hak]
      congr 1
      refine ih ?_ hnd.2
      rcases List.mem_cons.mp hk with h | h
      · exact absurd h.symm hak
      · exact h

/-- Inserting under a fresh key appends a new singleton bucket. -/
theorem addToAssoc_absent (keys : List Char) (g : Char → List SearchRow)
    (k : Char) (x : SearchRow) (hk : k ∉ keys) :
    AddToAssoc (keys.map (fun k2 => (k2, g k2))) k x =
      keys.map (fun k2 => (k2, g k2)) ++ [(k, [x])] := by
  induction keys with
  | nil => simp [AddToAssoc]
  | cons a t ih =>
    simp only [List.mem_cons, not_or] at hk
    rw [List.map_cons, AddToAssoc, if_neg (fun hc => hk.1 hc.symm), ih hk.2]
    rfl

/-- The incremental bucket fold equals the specification bucketing: keys
in first-encounter order, each bucket the filter of the hits at its key. -/
theorem buckets_foldl_spec (rows : List SearchRow) :
    rows.foldl (fun bs r => AddToAssoc bs (DriveBucketKeyFromPath r.path) r) [] =
      (DedupKeysFirst (rows.map (fun r => DriveBucketKeyFromPath r.path))).map
        (fun k => (k, rows.filter (fun r => DriveBucketKeyFromPath r.path = k))) := by
  induction rows using List.reverseRecOn with
  | nil => simp [DedupKeysFirst]
  | append_singleton l x ih =>
    rw [List.foldl_append, List.foldl_cons, List.foldl_nil, ih]
    have hdedup : DedupKeysFirst ((l ++ [x]).map
        (fun r => DriveBucketKeyFromPath r.path)) =
        (if DriveBucketKeyFromPath x.path ∈
            DedupKeysFirst (l.map (fun r => DriveBucketKeyFromPath r.path))
         then DedupKeysFirst (l.map (fun r => DriveBucketKeyFromPath r.path))
         else DedupKeysFirst (l.map (fun r => DriveBucketKeyFromPath r.path)) ++
           [DriveBucketKeyFromPath x.path]) := by
      unfold DedupKeysFirst
      rw [List.map_append, List.foldl_append]
      rfl
    by_cases hmem : DriveBucketKeyFromPath x.path ∈
        DedupKeysFirst (l.map (fun r => DriveBucketKeyFromPath r.path))
    · rw [hdedup, if_pos hmem,
        addToAssoc_present _ _ _ _ hmem (nodup_dedupKeysFirst _)]
      apply List.map_congr_left
      intro b _
      by_cases hbk : b = DriveBucketKeyFromPath x.path
      · rw [if_pos hbk, List.filter_append]
        congr 1
        simp [hbk]
      · rw [if_neg hbk, List.filter_append]
        have : [x].filter (fun r => DriveBucketKeyFromPath r.path = b) = [] := by
          simp
          intro hc
          exact hbk hc.symm
        rw [this, List.append_nil]
    · rw [hdedup, if_neg hmem, addToAssoc_absent _ _ _ _ hmem, List.map_append]
      congr 1
      · apply List.map_congr_left
        intro b hb
        have hbk : b ≠ DriveBucketKeyFromPath x.path := fun hc => hmem (hc ▸ hb)
        rw [List.filter_append]
        have : [x].filter (fun r => DriveBucketKeyFromPath r.path = b) = [] := by
          simp
          intro hc
          exact hbk hc.symm
        rw [this, List.append_nil]
      · have hnil : l.filter
            (fun r => DriveBucketKeyFromPath r.path = DriveBucketKeyFromPath x.path) =
            [] := by
          rw [List.filter_eq_nil_iff]
          intro r hr
          simp only [decide_eq_true_eq]
          intro hc
          exact hmem ((mem_dedupKeysFirst _ _).mpr
            (by rw [← hc]; exact List.mem_map_of_mem _ hr))
        simp only [List.map_cons, List.map_nil, List.filter_append, hnil,
          List.nil_append]
        simp

/-- Round k at a cons bucket with an element at index k. -/
theorem roundAt_cons_of_lt (b : List SearchRow) (buckets : List (List SearchRow))
    (k : Nat) (hk : k < b.length) :
    RoundAt (b :: buckets) k = b.getD k default :: RoundAt buckets k := by
  unfold RoundAt
  rw [List.filterMap_cons]
  have : b.get? k = some (b.getD k default) := by
    rw [List.get?_eq_getElem?, List.getElem?_eq_getElem hk,
      List.getD_eq_getElem b default hk]
  rw [this]

/-- Round k at a cons bucket exhausted at index k. -/
theorem roundAt_cons_of_ge (b : List SearchRow) (buckets : List (List SearchRow))
    (k : Nat) (hk : ¬ k < b.length) :
    RoundAt (b :: buckets) k = RoundAt buckets k := by
  unfold RoundAt
  rw [List.filterMap_cons]
  have : b.get? k = none := by
    rw [List.get?_eq_getElem?, List.getElem?_eq_none]
    omega
  rw [this]

/-- Every bucket is bounded by the maximal bucket length. -/
theorem len_le_maxBucketLen (b : List SearchRow) :
    ∀ (buckets : List (List SearchRow)), b ∈ buckets →
    b.length ≤ MaxBucketLen buckets := by
  intro buckets
  induction buckets with
  | nil => intro h; simp at h
  | cons c rest ih =>
    intro hb
    unfold MaxBucketLen
    rw [List.foldr_cons]
    rcases List.mem_cons.mp hb with rfl | h2
    · exact Nat.le_max_left _ _
    · exact le_trans (ih h2) (Nat.le_max_right _ _)

/-- A round is empty exactly when every bucket is exhausted. -/
theorem roundAt_nil_iff (buckets : List (List SearchRow)) (k : Nat) :
    RoundAt buckets k = [] ↔ MaxBucketLen buckets ≤ k := by
  induction buckets with
  | nil => simp [RoundAt, MaxBucketLen]
  | cons b rest ih =>
    by_cases hk : k < b.length
    · rw [roundAt_cons_of_lt b rest k hk]
      constructor
      · intro h; exact absurd h (by simp)
      · intro h
        unfold MaxBucketLen at h
        rw [List.foldr_cons] at h
        omega
    · rw [roundAt_cons_of_ge b rest k hk, ih]
      unfold MaxBucketLen
      rw [List.foldr_cons]
      constructor
      · intro h
        have : MaxBucketLen rest ≤ k := h
        unfold MaxBucketLen at this
        omega
      · intro h
        show MaxBucketLen rest ≤ k
        unfold MaxBucketLen
        omega

/-- Unfolding equation of the rounds concatenation. -/
theorem roundsFrom_eq (buckets : List (List SearchRow)) (k : Nat) :
    RoundsFrom buckets k =
      (if k < MaxBucketLen buckets
       then RoundAt buckets k ++ RoundsFrom buckets (k + 1)
       else []) := by
  rw [RoundsFrom]

/-- Unfolding equation of the round-robin while-loop. -/
theorem roundRobinLoop_eq (entries : List (List SearchRow × Nat))
    (rows : List SearchRow) (limit : Nat) :
    RoundRobinLoop entries rows limit =
      (if rows.length < limit then
        (if (RoundRobinPass entries rows limit).2.2 = true
         then RoundRobinLoop (RoundRobinPass entries rows limit).1
           (RoundRobinPass entries rows limit).2.1 limit
         else (RoundRobinPass entries rows limit).2.1)
       else rows) := by
  by_cases h : rows.length < limit
  · rw [RoundRobinLoop, dif_pos h, if_pos h]
    by_cases happ : (RoundRobinPass entries rows limit).2.2 = true
    · rw [dif_pos happ, if_pos happ]
    · rw [dif_neg happ, if_neg happ]
  · rw [RoundRobinLoop, dif_neg h, if_neg h]

/-- A pass that reaches the end of the round (the limit is not exceeded
mid-pass): offsets advance to round k + 1, the whole round is appended,
and the appended flag reports whether the round was nonempty. -/
theorem pass_complete (limit k : Nat) :
    ∀ (buckets : List (List SearchRow)) (rows : List SearchRow),
    rows.length < limit →
    rows.length + (RoundAt buckets k).length ≤ limit →
    RoundRobinPass (buckets.map (fun b => (b, min k b.length))) rows limit =
      (buckets.map (fun b => (b, min (k + 1) b.length)),
       rows ++ RoundAt buckets k, decide (RoundAt buckets k ≠ [])) := by
  intro buckets
  induction buckets with
  | nil =>
    intro rows h1 h2
    simp [RoundRobinPass, RoundAt]
  | cons b rest ih =>
    intro rows h1 h2
    rw [List.map_cons]
    by_cases hk : k < b.length
    · have hmin : min k b.length = k := Nat.min_eq_left (Nat.le_of_lt hk)
      have hmin1 : min (k + 1) b.length = k + 1 := Nat.min_eq_left hk
      rw [hmin, RoundRobinPass, if_pos hk]
      rw [roundAt_cons_of_lt b rest k hk] at h2 ⊢
      simp only [List.length_cons] at h2
      by_cases hbr : limit ≤ rows.length + 1
      · have hra : (RoundAt rest k).length = 0 := by omega
        have hra2 : RoundAt rest k = [] := List.length_eq_zero.mp hra
        rw [if_pos (by simp; omega)]
        have hrest : rest.map (fun b2 => (b2, min k b2.length)) =
            rest.map (fun b2 => (b2, min (k + 1) b2.length)) := by
          apply List.map_congr_left
          intro b2 hb2
          have h3 := len_le_maxBucketLen b2 rest hb2
          have h4 : MaxBucketLen rest ≤ k := (roundAt_nil_iff rest k).mp hra2
          rw [Nat.min_eq_right (by omega), Nat.min_eq_right (by omega)]
        rw [List.map_cons, hmin1, hra2, hrest]
        simp
      · rw [if_neg (by simp; omega)]
        have hrec := ih (rows ++ [b.getD k default]) (by simp; omega)
          (by simp; omega)
        rw [hrec, List.map_cons, hmin1]
        simp
    · have hmin : min k b.length = b.length := Nat.min_eq_right (by omega)
      have hmin1 : min (k + 1) b.length = b.length := Nat.min_eq_right (by omega)
      rw [hmin, RoundRobinPass, if_neg (by omega)]
      rw [roundAt_cons_of_ge b rest k hk] at h2 ⊢
      rw [ih rows h1 h2, List.map_cons, hmin1]

/-- A pass that breaks mid-round at the limit: the accumulated rows become
exactly the limit-filling prefix of the round and the appended flag is set. -/
theorem pass_break (limit k : Nat) :
    ∀ (buckets : List (List SearchRow)) (rows : List SearchRow),
    rows.length < limit →
    limit < rows.length + (RoundAt buckets k).length →
    ∃ entries2,
    RoundRobinPass (buckets.map (fun b => (b, min k b.length))) rows limit =
      (entries2, rows ++ (RoundAt buckets k).take (limit - rows.length), true) := by
  intro buckets
  induction buckets with
  | nil =>
    intro rows h1 h2
    simp [RoundAt] at h2
    exact absurd h1 (by omega)
  | cons b rest ih =>
    intro rows h1 h2
    rw [List.map_cons]
    by_cases hk : k < b.length
    · have hmin : min k b.length = k := Nat.min_eq_left (Nat.le_of_lt hk)
      rw [roundAt_cons_of_lt b rest k hk] at h2 ⊢
      simp only [List.length_cons] at h2
      by_cases hbr : limit ≤ rows.length + 1
      · refine ⟨(b, k + 1) :: rest.map (fun b2 => (b2, min k b2.length)), ?_⟩
        have htake : limit - rows.length = 1 := by omega
        rw [htake, hmin, RoundRobinPass, if_pos hk, if_pos (by simp; omega)]
        simp
      · obtain ⟨e2, he⟩ := ih (rows ++ [b.getD k default])
          (by simp; omega) (by simp; omega)
        refine ⟨(b, k + 1) :: e2, ?_⟩
        have htake : limit - rows.length = (limit - (rows.length + 1)) + 1 := by omega
        rw [htake, List.take_succ_cons, hmin, RoundRobinPass, if_pos hk,
          if_neg (by simp; omega), he]
        simp
    · have hmin : min k b.length = b.length := Nat.min_eq_right (by omega)
      rw [roundAt_cons_of_ge b rest k hk] at h2 ⊢
      obtain ⟨e2, he⟩ := ih rows h1 h2
      refine ⟨(b, b.length) :: e2, ?_⟩
      rw [hmin, RoundRobinPass, if_neg (by omega), he]

/-- When a pass succeeds with the appended flag, the loop continues on the
pass output. -/
theorem roundRobinLoop_step (entries entries2 : List (List SearchRow × Nat))
    (rows rows2 : List SearchRow) (limit : Nat) (h1 : rows.length < limit)
    (hpass : RoundRobinPass entries rows limit = (entries2, rows2, true)) :
    RoundRobinLoop entries rows limit = RoundRobinLoop entries2 rows2 limit := by
  rw [roundRobinLoop_eq, if_pos h1, hpass]
  simp

/-- When a pass appends nothing, the loop stops with the pass output rows. -/
theorem roundRobinLoop_last (entries entries2 : List (List SearchRow × Nat))
    (rows rows2 : List SearchRow) (limit : Nat) (h1 : rows.length < limit)
    (hpass : RoundRobinPass entries rows limit = (entries2, rows2, false)) :
    RoundRobinLoop entries rows limit = rows2 := by
  rw [roundRobinLoop_eq, if_pos h1, hpass]
  simp

/-- When every bucket is exhausted at offset k the loop adds nothing. -/
theorem roundRobinLoop_exhausted (limit k : Nat) (buckets : List (List SearchRow))
    (rows : List SearchRow) (hmax : MaxBucketLen buckets ≤ k) :
    RoundRobinLoop (buckets.map (fun b => (b, min k b.length))) rows limit = rows := by
  by_cases h1 : rows.length < limit
  · have hra : RoundAt buckets k = [] := (roundAt_nil_iff buckets k).mpr hmax
    have hpass := pass_complete limit k buckets rows h1
      (by rw [hra]; simp only [List.length_nil]; omega)
    rw [hra] at hpass
    have hpass2 : RoundRobinPass (buckets.map (fun b => (b, min k b.length))) rows limit =
        (buckets.map (fun b => (b, min (k + 1) b.length)), rows, false) := by
      rw [hpass]; simp
    exact roundRobinLoop_last _ _ _ _ _ h1 hpass2
  · rw [roundRobinLoop_eq, if_neg h1]

/-- The round-robin while-loop started at offset k realises the
specification: it appends the truncated concatenation of the remaining
rounds to the accumulated rows. -/
theorem roundRobinLoop_spec (limit : Nat) (buckets : List (List SearchRow)) :
    ∀ (n k : Nat) (rows : List SearchRow), MaxBucketLen buckets - k ≤ n →
    RoundRobinLoop (buckets.map (fun b => (b, min k b.length))) rows limit =
      rows ++ (RoundsFrom buckets k).take (limit - rows.length) := by
  intro n
  induction n with
  | zero =>
    intro k rows hn
    rw [roundRobinLoop_exhausted limit k buckets rows (by omega),
      roundsFrom_eq, if_neg (by omega)]
    simp
  | succ n ih =>
    intro k rows hn
    by_cases hmax : MaxBucketLen buckets ≤ k
    · rw [roundRobinLoop_exhausted limit k buckets rows hmax,
        roundsFrom_eq, if_neg (by omega)]
      simp
    · by_cases h1 : rows.length < limit
      · rw [roundsFrom_eq, if_pos (by omega)]
        by_cases hfit : rows.length + (RoundAt buckets k).length ≤ limit
        · have hne : RoundAt buckets k ≠ [] := by
            intro hc
            exact absurd ((roundAt_nil_iff buckets k).mp hc) (by omega)
          have hpass := pass_complete limit k buckets rows h1 hfit
          have hpass2 : RoundRobinPass (buckets.map (fun b => (b, min k b.length))) rows limit =
              (buckets.map (fun b => (b, min (k + 1) b.length)),
               rows ++ RoundAt buckets k, true) := by
            rw [hpass, decide_eq_true hne]
          rw [roundRobinLoop_step _ _ _ _ _ h1 hpass2,
            ih (k + 1) (rows ++ RoundAt buckets k) (by omega)]
          rw [List.take_append_eq_append_take,
            List.take_of_length_le (show (RoundAt buckets k).length ≤ limit - rows.length
              from by omega)]
          rw [← List.append_assoc]
          have hlen2 : limit - (rows ++ RoundAt buckets k).length =
              limit - rows.length - (RoundAt buckets k).length := by
            rw [List.length_append]; omega
          rw [hlen2]
        · push_neg at hfit
          obtain ⟨e2, hpassb⟩ := pass_break limit k buckets rows h1 hfit
          rw [roundRobinLoop_step _ _ _ _ _ h1 hpassb]
          have hlen : (rows ++ (RoundAt buckets k).take (limit - rows.length)).length
              = limit := by
            rw [List.length_append, List.length_take]
            omega
          rw [roundRobinLoop_eq, if_neg (by omega)]
          rw [List.take_append_eq_append_take]
          have h0 : limit - rows.length - (RoundAt buckets k).length = 0 := by omega
          rw [h0, List.take_zero, List.append_nil]
      · rw [roundRobinLoop_eq, if_neg h1]
        have h0 : limit - rows.length = 0 := by omega
        rw [h0, List.take_zero, List.append_nil]

/-- The effective limit is always at least one. -/
theorem effectiveLimit_pos (r : Nat) : 1 ≤ EffectiveLimit r := by
  unfold EffectiveLimit
  by_cases h : r = 0
  · rw [if_pos h]; omega
  · rw [if_neg h]; omega

/-- The limit field of the assembled query is the effective limit. -/
theorem makeSearchQuery_limit (query_utf8 extension_utf8 : Option (List Char))
    (min_size max_size : Nat) (min_created_unix max_created_unix : Int)
    (requested_limit : Nat) :
    (MakeSearchQuery query_utf8 extension_utf8 min_size max_size
      min_created_unix max_created_unix requested_limit).limit =
    EffectiveLimit requested_limit := rfl

/-- The code's boolean distribution condition agrees with the spec's. -/
theorem distributeAcrossDrives_iff (env : SearchEnv) (q : SearchQuery) :
    DistributeAcrossDrives env q = true ↔
      (env.g_scan_all_drives_mode = true ∧ 1 < q.limit ∧ q.query = [] ∧
       (HasExtensionFilter q = true ∨ HasSizeFilter q = true ∨
        HasDateFilter q = true)) := by
  unfold DistributeAcrossDrives
  simp [Bool.and_eq_true, Bool.or_eq_true, and_assoc, or_assoc]

/-- In distribution mode, bucketing plus the round-robin loop realise the
spec-side bucket-and-round-robin assembly. -/
theorem distribute_branch_eq (fs : FsModel) (q : SearchQuery)
    (files : List IndexedFile) :
    RoundRobinLoop ((SearchBucketLoop fs q files []).map (fun b => (b.2, 0)))
      [] q.limit =
      SpecRoundRobin (SpecDriveBuckets (SearchHits fs q files)) q.limit := by
  rw [searchBucketLoop_eq_foldl, buckets_foldl_spec, List.map_map]
  have hmap : (DedupKeysFirst ((SearchHits fs q files).map
        (fun r => DriveBucketKeyFromPath r.path))).map
      ((fun (b : Char × List SearchRow) => (b.2, 0)) ∘
        (fun k2 => (k2, (SearchHits fs q files).filter
          (fun r => DriveBucketKeyFromPath r.path = k2)))) =
      (SpecDriveBuckets (SearchHits fs q files)).map
        (fun b2 => (b2, min 0 b2.length)) := by
    unfold SpecDriveBuckets
    rw [List.map_map]
    apply List.map_congr_left
    intro a _
    simp [Function.comp]
  rw [hmap, roundRobinLoop_spec q.limit (SpecDriveBuckets (SearchHits fs q files))
    (MaxBucketLen (SpecDriveBuckets (SearchHits fs q files))) 0 [] (by omega)]
  simp [SpecRoundRobin]

/-- Outside distribution mode, the early-stopping scan realises the
spec-side truncation of the hit list. -/
theorem scan_branch_eq (fs : FsModel) (q : SearchQuery)
    (files : List IndexedFile) (hlim : 1 ≤ q.limit) :
    SearchScanLoop fs q files [] = (SearchHits fs q files).take q.limit := by
  rw [searchScanLoop_eq_take fs q hlim files [] (by simp; omega)]
  simp

/-- C5: the all-drives distribution mode is engaged exactly when the most
recent enumeration was an all-drives scan, the query substring is empty,
the limit exceeds one, and at least one extension, size, or date filter is
set; in that mode hits are bucketed by drive key in first-encounter order
and the result is assembled by round-robin across buckets until the limit
or exhaustion, as stated by the spec-side restatement SpecSearchResult. -/
theorem search_distribution_mode (env : SearchEnv) (fs : FsModel)
    (query_utf8 extension_utf8 : Option (List Char)) (min_size max_size : Nat)
    (min_created_unix max_created_unix : Int) (requested_limit : Nat) :
    omni_search_files_json env fs query_utf8 extension_utf8 min_size max_size
      min_created_unix max_created_unix requested_limit =
    SpecSearchResult env fs query_utf8 extension_utf8 min_size max_size
      min_created_unix max_created_unix requested_limit := by
  simp only [omni_search_files_json, SpecSearchResult]
  by_cases hd : DistributeAcrossDrives env (MakeSearchQuery query_utf8 extension_utf8
    min_size max_size min_created_unix max_created_unix requested_limit) = true
  · rw [if_pos hd, if_pos ((distributeAcrossDrives_iff _ _).mp hd)]
    exact distribute_branch_eq fs _ env.g_indexed_files
  · rw [if_neg hd, if_neg (fun hc => hd ((distributeAcrossDrives_iff _ _).mpr hc))]
    exact scan_branch_eq fs _ env.g_indexed_files
      (by rw [makeSearchQuery_limit]; exact effectiveLimit_pos requested_limit)
